import Mathlib

/-!
# mio-go: save-file decoder

A shallow embedding of `src/main.go` (the WarioWare DIY save extractor) and
theorems about its catalog scan, payload-offset formula, text-field decoder,
full-code formatting, version locator, magic check, payload copy and file
naming.

Conventions of the embedding

* A byte is `Fin 256`; a Go `string` / `[]byte` is a `List Byte`.
* The opened save file is its byte content, `File := List Byte`.
  `ReadAt file n off` models `file.ReadAt(buf, off)` on a freshly made
  (zero-filled) buffer of length `n`: bytes past the end of the file stay zero
  and the error result is discarded, as every call site in `main.go` does.
* `uint32` values are natural numbers and every `uint32` operation is followed
  by an explicit `% 2 ^ 32`; the `byte` subtraction `itemOffset-1` is taken
  `% 256`.
* Go `int` values that the program only ever uses as non-negative offsets,
  sizes and counters are natural numbers.
* One call of `dumpItem` is modelled twice. `dumpItem` takes the outcome of
  `os.Create` as the parameter `canCreate` and keeps the output files as a map
  from path strings to contents (`FS`). `dumpItemDisk` works on a directory
  tree (`Disk`) and computes the outcomes of `os.Stat`, `os.MkdirAll` and
  `os.Create` from it, resolving paths name by name as the system does;
  permissions, symbolic links and limits on name length are not modelled. The
  save file is not among the output paths.
* Debug printing and progress messages are not modelled.
-/

namespace Mio

/-! ## Bytes, strings and the save file -/

/-- A Go `byte`. -/
abbrev Byte := Fin 256

/-- The content of the opened save file (`*os.File`, read-only). -/
abbrev File := List Byte

/-- The byte string of an ASCII string literal of the source. -/
def ascii (s : String) : List Byte :=
  s.toList.map (fun c => Fin.ofNat c.toNat)

/-- The byte of the file at absolute position `pos`, zero past the end. -/
def byteAt (file : File) (pos : Nat) : Byte :=
  file.getD pos 0

/-- `file.ReadAt(buf, off)` with `buf := make([]byte, n)`: the buffer after the
call. Positions past the end of the file keep the zero of `make`. -/
def ReadAt (file : File) (n : Nat) (off : Nat) : List Byte :=
  (List.range n).map (fun i => byteAt file (off + i))

/-! ## Constants (main.go lines 11-25) -/

def offsetV1 : Nat := 0x0
def offsetV2 : Nat := 0x3000
def offsetVersionSearch : Nat := 0x14

def offsetBrand : Nat := 0x35
def offsetName : Nat := 0x1C
def offsetAuthor : Nat := 0x48
def offsetCode : Nat := 0xCF
def offsetItemNumber : Nat := 0xD4
def offsetItemRevision : Nat := 0xD

def lenVersionStr : Nat := 4
def lenBrand : Nat := 9
def lenName : Nat := 0x18
def lenAuthor : Nat := 0x18

/-- The category descriptor `type medium struct` (lines 27-32); the three
numeric fields are `uint32` in the source. -/
structure medium where
  dataName : String
  dataStart : Nat
  dataIndex : Nat
  dataSize : Nat
  deriving DecidableEq, Repr

/-- The numeric fields of a descriptor fit the source's `uint32`. -/
def medium.isUint32 (m : medium) : Prop :=
  m.dataStart < 2 ^ 32 ∧ m.dataIndex < 2 ^ 32 ∧ m.dataSize < 2 ^ 32

instance (m : medium) : Decidable m.isUint32 := by
  unfold medium.isUint32; exact inferInstance

def mediumMicrogame : medium :=
  { dataName := "microgame", dataStart := 0x120000, dataIndex := 0x6E0, dataSize := 0x10000 }

def mediumRecord : medium :=
  { dataName := "record", dataStart := 0x920000, dataIndex := 0x796, dataSize := 0x2000 }

def mediumComic : medium :=
  { dataName := "comic", dataStart := 0xA20000, dataIndex := 0x84C, dataSize := 0x3800 }

/-! ## verSearch (lines 116-125) -/

/-- `verSearch(file, offset)`: the sum of the `lenVersionStr` bytes read at
`offset + offsetVersionSearch`. -/
def verSearch (file : File) (offset : Nat) : Nat :=
  let start := offset + offsetVersionSearch
  let b := ReadAt file lenVersionStr start
  (List.range lenVersionStr).foldl (fun result i => result + (b.getD i 0).val) 0

/-! ## readShelf (lines 127-148) -/

/-- The non-zero bytes of a sequence, in order. -/
def nonZero (l : List Byte) : List Byte := l.filter (fun b => decide (b ≠ 0))

/-- The loop `for i := 0; i < len(shelf); i += 2` of `readShelf`, from index
`i` with `foundItems` accumulated so far; `fuel` bounds the number of
iterations. -/
def readShelfLoop (shelf : List Byte) : Nat → Nat → List Byte → List Byte
  | 0, _, foundItems => foundItems
  | fuel + 1, i, foundItems =>
    if i < shelf.length then
      if shelf.getD i 0 = 0 then
        readShelfLoop shelf fuel (i + 2) foundItems
      else
        readShelfLoop shelf fuel (i + 2) (foundItems ++ [shelf.getD i 0])
    else foundItems

/-- `readShelf(file, saveOffset, medium)`. The loop is given `len(shelf)`
iterations of fuel, more than the 90 it needs. -/
def readShelf (file : File) (saveOffset : Nat) (m : medium) : List Byte :=
  let shelf := ReadAt file 0xB4 (saveOffset + m.dataIndex)
  readShelfLoop shelf shelf.length 0 []

/-! ## getItemPos and the field readers (lines 199-241) -/

/-- `getItemPos(itemOffset, medium)`:
`medium.dataStart + uint32(itemOffset-1)*medium.dataSize` in `uint32`
arithmetic, `itemOffset-1` being a `byte` subtraction. -/
def getItemPos (itemOffset : Byte) (m : medium) : Nat :=
  (m.dataStart + ((itemOffset.val + 255) % 256) * m.dataSize % 2 ^ 32) % 2 ^ 32

/-- The literal `[]byte{'b','u','i','l','t','i','n'}` of `readString`. -/
def builtin : List Byte := ascii "builtin"

/-- The byte that `readString` reads at index `i` of the field whose `uint32`
start is `offset`: the file byte at `offset+uint32(i)`. -/
def fieldByte (file : File) (offset i : Nat) : Byte :=
  byteAt file ((offset + i % 2 ^ 32) % 2 ^ 32)

/-- The `n` bytes of the file at the addresses `off, off+1, ..., off+n-1`, each
address reduced modulo `2^32`. -/
def wrapRead (file : File) (n off : Nat) : List Byte :=
  (List.range n).map (fun i => byteAt file ((off + i) % 2 ^ 32))

/-- Text decoding of a field as the specification words it: the text `builtin`
when the first byte of the field is zero, otherwise the bytes of the field up
to its first zero byte or its end. -/
def textDecoding (field : List Byte) : List Byte :=
  if field.head? = some 0 then builtin
  else field.takeWhile (fun b => decide (b ≠ 0))

/-- The loop of `readString` from index `i` with `datum` accumulated so far;
`offset` is the `uint32` start of the field and each byte is read at
`offset+uint32(i)`. -/
def readStringLoop (file : File) (offset size : Nat) : Nat → Nat → List Byte → List Byte
  | 0, _, datum => datum
  | fuel + 1, i, datum =>
    if i < size then
      let b := ReadAt file 1 ((offset + i % 2 ^ 32) % 2 ^ 32)
      if b.getD 0 0 = 0 then
        if i = 0 then builtin else datum
      else
        readStringLoop file offset size fuel (i + 1) (datum ++ [b.getD 0 0])
    else datum

/-- `readString(file, itemOffset, dataOffset, size, medium)`; the loop gets
`size` iterations of fuel, which is what it needs at most. -/
def readString (file : File) (itemOffset : Byte) (dataOffset size : Nat) (m : medium) :
    List Byte :=
  let offset := (getItemPos itemOffset m + dataOffset) % 2 ^ 32
  readStringLoop file offset size size 0 []

/-- `readInt(file, itemOffset, dataOffset, medium)`. -/
def readInt (file : File) (itemOffset : Byte) (dataOffset : Nat) (m : medium) : Nat :=
  let offset := (getItemPos itemOffset m + dataOffset) % 2 ^ 32
  ((ReadAt file 1 offset).getD 0 0).val

def readBrand (file : File) (itemOffset : Byte) (m : medium) : List Byte :=
  readString file itemOffset offsetBrand lenBrand m

def readName (file : File) (itemOffset : Byte) (m : medium) : List Byte :=
  readString file itemOffset offsetName lenName m

def readAuthor (file : File) (itemOffset : Byte) (m : medium) : List Byte :=
  readString file itemOffset offsetAuthor lenAuthor m

/-- The ASCII upper-case counterpart of a byte: `c -= 'a' - 'A'` for a
lower-case letter, the byte itself otherwise. -/
def upperByte (c : Byte) : Byte :=
  if 0x61 ≤ c.val ∧ c.val ≤ 0x7A then Fin.ofNat (c.val - 0x20) else c

/-- Go's `strings.ToUpper`. A string of ASCII bytes only is returned as it is
when it has no lower-case letter and with each lower-case letter replaced
otherwise. The branch for a string with a byte `>= 0x80`
(`Map(unicode.ToUpper, s)`) is standard-library code with Unicode tables and
is the parameter `unicodeUpper`. -/
def ToUpper (unicodeUpper : List Byte → List Byte) (s : List Byte) : List Byte :=
  if s.all (fun c => decide (c.val < 0x80)) then
    if s.any (fun c => decide (0x61 ≤ c.val ∧ c.val ≤ 0x7A)) then s.map upperByte else s
  else unicodeUpper s

/-- `readCode(file, itemOffset, medium)`. -/
def readCode (unicodeUpper : List Byte → List Byte) (file : File) (itemOffset : Byte)
    (m : medium) : List Byte :=
  ToUpper unicodeUpper (readString file itemOffset offsetCode 4 m)

/-! ## dumpItem: the full code (lines 160-163) -/

/-- The verb `%0{wid}d` of `fmt.Sprintf` on a non-negative integer: its decimal
digits, padded with `'0'` on the left up to `wid` characters. -/
def fmtZeroPad (wid n : Nat) : List Byte :=
  let digits : List Byte := (Nat.toDigits 10 n).map (fun c => Fin.ofNat c.toNat)
  List.replicate (wid - digits.length) 0x30 ++ digits

/-- The number `n` written in decimal with exactly `w` digits, most significant
first, leading zeros included (the specification's `{n:0w}`). -/
def zeroPadded (w n : Nat) : List Byte :=
  (List.range w).map (fun i => Fin.ofNat (0x30 + n / 10 ^ (w - 1 - i) % 10))

/-- The local `fullcode` of `dumpItem`:
`fmt.Sprintf("G-%v-%04d-%03d", code, number, revision)`. -/
def fullcode (unicodeUpper : List Byte → List Byte) (file : File) (itemOffset : Byte)
    (m : medium) : List Byte :=
  let code := readCode unicodeUpper file itemOffset m
  let number := readInt file itemOffset offsetItemNumber m + 1
  let revision := readInt file itemOffset offsetItemRevision m
  ascii "G-" ++ code ++ ascii "-" ++ fmtZeroPad 4 number ++ ascii "-" ++ fmtZeroPad 3 revision

/-! ## main: the magic check, region choice and the dumpItem calls (lines 81-112) -/

/-- The loop of `compareBytes` from index `i`. -/
def compareBytesLoop (a b : List Byte) : Nat → Nat → Bool
  | 0, _ => true
  | fuel + 1, i =>
    if i < a.length then
      if a.getD i 0 ≠ b.getD i 0 then false else compareBytesLoop a b fuel (i + 1)
    else true

/-- `compareBytes(a, b)`. -/
def compareBytes (a b : List Byte) : Bool :=
  if a.length ≠ b.length then false else compareBytesLoop a b a.length 0

def checkIsSav : List Byte :=
  [0x0E, 0x00, 0x00, 0x00, 0x00, 0x00, 0x00, 0x00, 0x44, 0x53, 0x4D, 0x49, 0x4F, 0x5F, 0x53]

/-- The value of the local `saveOffset` of `main` (lines 90-99). -/
def mainSaveOffset (file : File) : Nat :=
  let ver1 := verSearch file offsetV1
  let ver2 := verSearch file offsetV2
  if ver2 > ver1 then offsetV2 else offsetV1

/-- The `dumpItem(file, entry, medium)` calls that `main` makes, in order, as
pairs of the entry and the descriptor (lines 81-112). None when the magic
check fails. -/
def mainDumpCalls (file : File) : List (Byte × medium) :=
  let testIsSav := ReadAt file checkIsSav.length 0
  if !compareBytes checkIsSav testIsSav then []
  else
    let microgames := readShelf file (mainSaveOffset file) mediumMicrogame
    let record := readShelf file (mainSaveOffset file) mediumRecord
    let comic := readShelf file (mainSaveOffset file) mediumComic
    microgames.map (fun e => (e, mediumMicrogame))
      ++ record.map (fun e => (e, mediumRecord))
      ++ comic.map (fun e => (e, mediumComic))

/-! ## dumpItem and the run (lines 34-37, 61-64, 150-197) -/

/-- The flag variables `debug`, `overwrite`, `outdir` and `format` (lines 34-37). -/
structure Config where
  debug : Bool
  overwrite : Bool
  outdir : List Byte
  format : List Byte

/-- The flag defaults set in `main` (lines 61-64). -/
def defaultConfig : Config :=
  { debug := false, overwrite := true, outdir := ascii "out",
    format := ascii "\x7bcode\x7d - \x7bname\x7d" }

/-- The output files: the content of every path that exists, `none` for a path
that does not. Directories are not modelled. -/
abbrev FS := List Byte → Option (List Byte)

/-- Go's `strings.Replace(s, old, new, 1)`: the first occurrence of `old` in `s`
replaced by `new`, `s` itself when `old` does not occur. -/
def replaceFirst : List Byte → List Byte → List Byte → List Byte
  | [], old, new => if old.isPrefixOf [] then new else []
  | c :: rest, old, new =>
    if old.isPrefixOf (c :: rest) then new ++ (c :: rest).drop old.length
    else c :: replaceFirst rest old new

/-- The local `strstr` of `dumpItem` after the four replacements (lines 156-169):
the formatted name of the item. -/
def dumpItemName (cfg : Config) (unicodeUpper : List Byte → List Byte) (file : File)
    (itemOffset : Byte) (m : medium) : List Byte :=
  let brand := readBrand file itemOffset m
  let name := readName file itemOffset m
  let author := readAuthor file itemOffset m
  let fullcode := fullcode unicodeUpper file itemOffset m
  let strstr := cfg.format
  let strstr := replaceFirst strstr (ascii "\x7bcode\x7d") fullcode
  let strstr := replaceFirst strstr (ascii "\x7bbrand\x7d") brand
  let strstr := replaceFirst strstr (ascii "\x7bname\x7d") name
  let strstr := replaceFirst strstr (ascii "\x7bauthor\x7d") author
  strstr

/-- The local `fileName` of `dumpItem` (lines 151, 175). -/
def dumpItemFileName (cfg : Config) (unicodeUpper : List Byte → List Byte) (file : File)
    (itemOffset : Byte) (m : medium) : List Byte :=
  let dirPath := cfg.outdir ++ ascii "/" ++ ascii m.dataName
  dirPath ++ ascii "/" ++ dumpItemName cfg unicodeUpper file itemOffset m ++ ascii ".mio"

/-- The local `data` of `dumpItem` (lines 192-193): the blob written to the
output file. The `uint32` position is widened to `int64` before the read, so
the read itself does not wrap. -/
def dumpItemData (file : File) (itemOffset : Byte) (m : medium) : List Byte :=
  ReadAt file m.dataSize (getItemPos itemOffset m)

/-- One call `dumpItem(file, itemOffset, medium)` as a change of the output
files, the outcome of `os.Create` being given: `canCreate` tells for which
paths it succeeds. An existing file is left alone when `overwrite` is off; a
created file holds exactly `data`. Directories and `os.MkdirAll` are left to
`dumpItemDisk`. -/
def dumpItem (cfg : Config) (unicodeUpper : List Byte → List Byte)
    (canCreate : List Byte → Bool) (file : File) (itemOffset : Byte) (m : medium)
    (fs : FS) : FS :=
  let fileName := dumpItemFileName cfg unicodeUpper file itemOffset m
  if (fs fileName).isSome && !cfg.overwrite then fs
  else if !canCreate fileName then fs
  else
    let data := dumpItemData file itemOffset m
    fun path => if path = fileName then some data else fs path

/-- The run of `main` on an opened save file, as a change of the output files:
the `dumpItem` calls of `mainDumpCalls` in order, each with the outcome of
`os.Create` given by `canCreate`. The run on a directory tree, where that
outcome depends on the directories made so far, is `mainDisk`. -/
def main (cfg : Config) (unicodeUpper : List Byte → List Byte)
    (canCreate : List Byte → Bool) (file : File) (fs : FS) : FS :=
  (mainDumpCalls file).foldl
    (fun out c => dumpItem cfg unicodeUpper canCreate file c.1 c.2 out) fs

/-! ## The output directory tree: os.Stat, os.MkdirAll, os.Create (lines 151-154, 175-195) -/

/-- A place in the directory tree: the names on the way down from the root. -/
abbrev Location := List (List Byte)

/-- The directory tree the output goes to: the working directory of the process,
the directories that exist besides the root, and the content of every regular
file. -/
structure Disk where
  cwd : Location
  dirs : List Location
  files : Location → Option (List Byte)

/-- A tree with only its root, which is the working directory. -/
def emptyDisk : Disk := { cwd := [], dirs := [], files := fun _ => none }

/-- The names of a path: the pieces between its separators `/`. -/
def splitPath : List Byte → List (List Byte)
  | [] => [[]]
  | c :: rest =>
    if c = 0x2F then [] :: splitPath rest
    else
      match splitPath rest with
      | [] => [[c]]
      | comp :: comps => (c :: comp) :: comps

/-- Where the resolution of a path starts: the root for a path that begins with
`/`, the working directory otherwise. -/
def pathStart (disk : Disk) (path : List Byte) : Location :=
  if path.head? = some 0x2F then [] else disk.cwd

def isDir (disk : Disk) (loc : Location) : Bool :=
  loc.isEmpty || disk.dirs.contains loc

def isFile (disk : Disk) (loc : Location) : Bool :=
  (disk.files loc).isSome

/-- The outcome of resolving a path: an existing directory, an existing regular
file, a name that does not exist in an existing directory (`missing`), a
regular file used as a directory (`notDir`), or a missing directory on the way
(`noEnt`). -/
inductive Lookup where
  | dir (loc : Location)
  | file (loc : Location)
  | missing (loc : Location)
  | notDir
  | noEnt
  deriving DecidableEq

/-- Resolution of the names of a path from the directory `cur`, name by name:
an empty name and `.` stay, `..` goes to the parent (the root is its own
parent), any other name must be an existing directory unless it is the last. -/
def pathLookup (disk : Disk) : Location → List (List Byte) → Lookup
  | cur, [] => Lookup.dir cur
  | cur, comp :: rest =>
    if comp = [] ∨ comp = ascii "." then pathLookup disk cur rest
    else if comp = ascii ".." then pathLookup disk cur.dropLast rest
    else if isDir disk (cur ++ [comp]) then pathLookup disk (cur ++ [comp]) rest
    else if isFile disk (cur ++ [comp]) then
      if rest = [] then Lookup.file (cur ++ [comp]) else Lookup.notDir
    else
      if rest = [] then Lookup.missing (cur ++ [comp]) else Lookup.noEnt

/-- The three outcomes of `os.Stat` that `dumpItem` tells apart: `err == nil`,
`os.IsNotExist(err)`, any other error. -/
inductive StatResult where
  | found
  | notExist
  | otherError
  deriving DecidableEq

/-- The outcome of `os.Stat(path)`. -/
def osStat (disk : Disk) (path : List Byte) : StatResult :=
  if path = [] then StatResult.notExist
  else
    match pathLookup disk (pathStart disk path) (splitPath path) with
    | Lookup.dir _ => StatResult.found
    | Lookup.file _ => StatResult.found
    | Lookup.missing _ => StatResult.notExist
    | Lookup.noEnt => StatResult.notExist
    | Lookup.notDir => StatResult.otherError

/-- The outcome of `os.Create(path)`: the place of the file that is created or
truncated, `none` when the call fails (a directory on the way does not exist or
is a regular file, or the path names a directory). -/
def osCreate (disk : Disk) (path : List Byte) : Option Location :=
  if path = [] then none
  else
    match pathLookup disk (pathStart disk path) (splitPath path) with
    | Lookup.file loc => some loc
    | Lookup.missing loc => some loc
    | _ => none

/-- The walk of `os.MkdirAll` along the names of a path: a directory that does
not exist yet is made, a regular file in the way stops the walk. -/
def mkdirWalk : Disk → Location → List (List Byte) → Disk
  | disk, _, [] => disk
  | disk, cur, comp :: rest =>
    if comp = [] ∨ comp = ascii "." then mkdirWalk disk cur rest
    else if comp = ascii ".." then mkdirWalk disk cur.dropLast rest
    else if isDir disk (cur ++ [comp]) then mkdirWalk disk (cur ++ [comp]) rest
    else if isFile disk (cur ++ [comp]) then disk
    else mkdirWalk { disk with dirs := (cur ++ [comp]) :: disk.dirs } (cur ++ [comp]) rest

/-- The tree after `os.MkdirAll(path, os.ModePerm)`; its error is discarded. -/
def osMkdirAll (disk : Disk) (path : List Byte) : Disk :=
  mkdirWalk disk (pathStart disk path) (splitPath path)

/-- The place a path names, whatever exists: the walk of `pathLookup` without
the checks. -/
def walkPure : Location → List (List Byte) → Location
  | cur, [] => cur
  | cur, comp :: rest =>
    if comp = [] ∨ comp = ascii "." then walkPure cur rest
    else if comp = ascii ".." then walkPure cur.dropLast rest
    else walkPure (cur ++ [comp]) rest

/-- The tree before the `os.Stat(fileName)` of `dumpItem` (lines 151-154): the
directory `dirPath` is made when `os.Stat` reports that it does not exist. -/
def dumpItemMkdir (dirPath : List Byte) (disk : Disk) : Disk :=
  if osStat disk dirPath = StatResult.notExist then osMkdirAll disk dirPath else disk

/-- The file-system part of `dumpItem` (lines 151-154, 177-195) for the computed
`dirPath`, `fileName` and `data`. -/
def dumpItemOS (overwrite : Bool) (dirPath fileName data : List Byte) (disk : Disk) : Disk :=
  let disk1 := dumpItemMkdir dirPath disk
  if osStat disk1 fileName = StatResult.found ∧ overwrite = false then disk1
  else
    match osCreate disk1 fileName with
    | none => disk1
    | some loc => { disk1 with files := fun l => if l = loc then some data else disk1.files l }

/-- Whether the call reaches `os.Create` and `os.Create` succeeds. -/
def dumpItemCreated (overwrite : Bool) (dirPath fileName : List Byte) (disk : Disk) : Bool :=
  let disk1 := dumpItemMkdir dirPath disk
  if osStat disk1 fileName = StatResult.found ∧ overwrite = false then false
  else (osCreate disk1 fileName).isSome

/-- The local `dirPath` of `dumpItem` (line 151). -/
def dumpItemDirPath (cfg : Config) (m : medium) : List Byte :=
  cfg.outdir ++ ascii "/" ++ ascii m.dataName

/-- `dumpItem(file, itemOffset, medium)` on a directory tree. -/
def dumpItemDisk (cfg : Config) (unicodeUpper : List Byte → List Byte) (file : File)
    (itemOffset : Byte) (m : medium) (disk : Disk) : Disk :=
  dumpItemOS cfg.overwrite (dumpItemDirPath cfg m)
    (dumpItemFileName cfg unicodeUpper file itemOffset m) (dumpItemData file itemOffset m) disk

/-- The given `dumpItem` calls in order, on a directory tree. -/
def dumpCallsDisk (cfg : Config) (unicodeUpper : List Byte → List Byte) (file : File) :
    List (Byte × medium) → Disk → Disk
  | [], disk => disk
  | c :: cs, disk =>
    dumpCallsDisk cfg unicodeUpper file cs (dumpItemDisk cfg unicodeUpper file c.1 c.2 disk)

/-- For each of the given calls in order, whether it created its file. -/
def dumpCallsCreated (cfg : Config) (unicodeUpper : List Byte → List Byte) (file : File) :
    List (Byte × medium) → Disk → List Bool
  | [], _ => []
  | c :: cs, disk =>
    dumpItemCreated cfg.overwrite (dumpItemDirPath cfg c.2)
        (dumpItemFileName cfg unicodeUpper file c.1 c.2) disk
      :: dumpCallsCreated cfg unicodeUpper file cs
          (dumpItemDisk cfg unicodeUpper file c.1 c.2 disk)

/-- The run of `main` on a directory tree: the `dumpItem` calls of
`mainDumpCalls` in order. -/
def mainDisk (cfg : Config) (unicodeUpper : List Byte → List Byte) (file : File)
    (disk : Disk) : Disk :=
  dumpCallsDisk cfg unicodeUpper file (mainDumpCalls file) disk

/-- For each `dumpItem` call of the run in order, whether `os.Create` was
reached and succeeded. -/
def mainCreated (cfg : Config) (unicodeUpper : List Byte → List Byte) (file : File)
    (disk : Disk) : List Bool :=
  dumpCallsCreated cfg unicodeUpper file (mainDumpCalls file) disk

/-! ## A save file whose item name holds a template token -/

/-- An item record with revision 0, the name `{author}`, an empty brand, the
author `Bob`, the code `ab01` and itemNumberIndex 0. -/
def tokenRecord : List Byte :=
  List.replicate 0x1C 0 ++ ascii "\x7bauthor\x7d" ++ List.replicate 0x24 0 ++ ascii "Bob"
    ++ List.replicate 0x84 0 ++ ascii "ab01" ++ [0x00, 0x00]

/-- The start of the save file: the magic, zeros, and the microgame catalog at
`0x6E0` that lists the entry 1. -/
def tokenCatalog : List Byte :=
  checkIsSav ++ List.replicate (0x6E0 - 15) 0 ++ [0x01]

/-- The part of the save file before the first microgame record, zero after
`tokenCatalog`. -/
def tokenSaveHead : List Byte :=
  tokenCatalog ++ List.replicate (0x120000 - 0x6E1) 0

/-- A save file with one microgame, whose record at `0x120000` is `tokenRecord`. -/
def tokenSave : File := tokenSaveHead ++ tokenRecord

/-! ## A save file whose item name leads into another directory -/

/-- The default flags with the naming template `{name}`. -/
def travConfig : Config :=
  { debug := false, overwrite := true, outdir := ascii "out", format := ascii "\x7bname\x7d" }

/-- The start of the save file: the magic, the microgame catalog at `0x6E0`
listing the entry 1, and the record catalog at `0x796` listing the entry 1. -/
def travCatalog : List Byte :=
  tokenCatalog ++ List.replicate (0x796 - 0x6E1) 0 ++ [0x01]

/-- A microgame record with the name `../record/X`, all other bytes zero. -/
def travMicrogame : List Byte :=
  List.replicate 0x1C 0 ++ ascii "../record/X" ++ List.replicate (0xD5 - 0x1C - 11) 0

/-- A record of the category `record` with the name `Y`, all other bytes zero. -/
def travRecord : List Byte :=
  List.replicate 0x1C 0 ++ ascii "Y" ++ List.replicate (0xD5 - 0x1C - 1) 0

/-- A save file with one microgame, at `0x120000`, and one item of the category
`record`, at `0x920000`. -/
def travSave : File :=
  travCatalog ++ List.replicate (0x120000 - 0x797) 0 ++ travMicrogame
    ++ List.replicate (0x920000 - 0x120000 - 0xD5) 0 ++ travRecord

/-! # Theorems -/

/-! ## Reading the file -/

theorem ReadAt_length (file : File) (n off : Nat) : (ReadAt file n off).length = n := by
  simp [ReadAt]

theorem ReadAt_getD (file : File) (n off i : Nat) :
    (ReadAt file n off).getD i 0 = if i < n then byteAt file (off + i) else 0 := by
  unfold ReadAt
  rw [List.getD_eq_getElem?_getD]
  by_cases h : i < n
  · simp [h]
  · rw [if_neg h, List.getElem?_eq_none (by simp; omega)]; rfl

theorem getD_zero_of_le (l : List Byte) (i : Nat) (h : l.length ≤ i) : l.getD i 0 = 0 := by
  rw [List.getD_eq_getElem?_getD, List.getElem?_eq_none h]; rfl

/-! ## The catalog scan -/

theorem nonZero_map_zero (g : Nat → Byte) (l : List Nat) (h : ∀ k ∈ l, g k = 0) :
    nonZero (l.map g) = [] := by
  unfold nonZero
  rw [List.filter_eq_nil_iff]
  intro b hb
  rw [List.mem_map] at hb
  obtain ⟨k, hk, rfl⟩ := hb
  simp [h k hk]

theorem mem_nonZero (l : List Byte) (b : Byte) (h : b ∈ nonZero l) : b ≠ 0 := by
  unfold nonZero at h
  rw [List.mem_filter] at h
  simpa using h.2

/-- With `fuel` iterations from index `i` the loop appends the non-zero bytes
found at `i, i+2, i+4, ...`; a position past the end of the window contributes
nothing, exactly like the loop's exit. -/
theorem readShelfLoop_eq (shelf : List Byte) :
    ∀ (fuel i : Nat) (found : List Byte),
      readShelfLoop shelf fuel i found
        = found ++ nonZero ((List.range fuel).map (fun k => shelf.getD (i + 2 * k) 0)) := by
  intro fuel
  induction fuel with
  | zero => intro i found; simp [readShelfLoop, nonZero]
  | succ fuel ih =>
    intro i found
    rw [readShelfLoop]
    by_cases hi : i < shelf.length
    · rw [if_pos hi, List.range_succ_eq_map, List.map_cons, List.map_map]
      have hfun : ((fun k => shelf.getD (i + 2 * k) 0) ∘ Nat.succ)
          = (fun k => shelf.getD (i + 2 + 2 * k) 0) := by
        funext k
        show shelf.getD (i + 2 * (k + 1)) 0 = shelf.getD (i + 2 + 2 * k) 0
        congr 1
        omega
      rw [hfun]
      by_cases hb : shelf.getD i 0 = 0
      · rw [if_pos hb, ih]
        congr 1
        show _ = nonZero (shelf.getD (i + 2 * 0) 0 :: _)
        unfold nonZero
        rw [List.filter_cons, if_neg (by simpa using hb)]
      · rw [if_neg hb, ih, List.append_assoc]
        congr 1
        show _ = nonZero (shelf.getD (i + 2 * 0) 0 :: _)
        unfold nonZero
        rw [List.filter_cons, if_pos (by simpa using hb)]
        rfl
    · rw [if_neg hi, nonZero_map_zero]
      · simp
      · intro k _
        exact getD_zero_of_le shelf _ (by omega)

theorem readShelf_eq (file : File) (saveOffset : Nat) (m : medium) :
    readShelf file saveOffset m
      = nonZero ((List.range 90).map
          (fun k => byteAt file (saveOffset + m.dataIndex + 2 * k))) := by
  unfold readShelf
  simp only []
  rw [readShelfLoop_eq, ReadAt_length, List.nil_append]
  have h180 : List.range 0xB4 = List.range 90 ++ (List.range 90).map (fun k => 90 + k) :=
    List.range_add 90 90
  rw [h180, List.map_append, List.map_map]
  unfold nonZero
  rw [List.filter_append]
  have h2 := nonZero_map_zero
    ((fun k => (ReadAt file 0xB4 (saveOffset + m.dataIndex)).getD (0 + 2 * k) 0) ∘ fun k => 90 + k)
    (List.range 90) (by
      intro k _
      show (ReadAt file 0xB4 (saveOffset + m.dataIndex)).getD (0 + 2 * (90 + k)) 0 = 0
      rw [ReadAt_getD, if_neg (by omega)])
  unfold nonZero at h2
  rw [h2, List.append_nil]
  refine congrArg _ (List.map_congr_left ?_)
  intro k hk
  rw [List.mem_range] at hk
  rw [ReadAt_getD, if_pos (by omega), Nat.zero_add]

theorem readShelf_ne_zero (file : File) (saveOffset : Nat) (m : medium) (b : Byte)
    (h : b ∈ readShelf file saveOffset m) : b ≠ 0 := by
  rw [readShelf_eq] at h
  exact mem_nonZero _ b h

theorem readShelf_length_le (file : File) (saveOffset : Nat) (m : medium) :
    (readShelf file saveOffset m).length ≤ 90 := by
  rw [readShelf_eq]
  unfold nonZero
  calc (List.filter _ _).length ≤ (List.map _ (List.range 90)).length := List.length_filter_le _ _
    _ = 90 := by simp

set_option maxRecDepth 100000 in
/-- C1. The shelf returned by `readShelf` is the sequence of non-zero bytes at the
even positions 0, 2, ..., 0xB2 of the 0xB4-byte window starting at
`saveOffset + medium.dataIndex`, in increasing position order, a byte past the
end of the file counting as zero. A file that agrees with this one on those 90
positions gives the same shelf, so the odd positions of the window have no
influence. A window beginning `01 00 00 00 00 00 02 00` followed by zeros gives
the shelf `[0x01, 0x02]`. -/
theorem readShelf_even_positions (file : File) (saveOffset : Nat) (m : medium) :
    readShelf file saveOffset m
        = ((List.range 90).map
            (fun k => byteAt file (saveOffset + m.dataIndex + 2 * k))).filter
              (fun b => decide (b ≠ 0))
      ∧ (∀ file2 : File,
          (∀ k, k < 90 → byteAt file2 (saveOffset + m.dataIndex + 2 * k)
              = byteAt file (saveOffset + m.dataIndex + 2 * k)) →
          readShelf file2 saveOffset m = readShelf file saveOffset m)
      ∧ (ReadAt file 0xB4 (saveOffset + m.dataIndex)
            = [0x01, 0x00, 0x00, 0x00, 0x00, 0x00, 0x02, 0x00] ++ List.replicate 172 0 →
          readShelf file saveOffset m = [0x01, 0x02]) := by
  refine ⟨readShelf_eq file saveOffset m, ?_, ?_⟩
  · intro file2 h
    rw [readShelf_eq, readShelf_eq]
    refine congrArg _ (List.map_congr_left ?_)
    intro k hk
    exact h k (List.mem_range.mp hk)
  · intro h
    unfold readShelf
    simp only []
    rw [h]
    decide

set_option maxRecDepth 100000 in
/-- A file of 4 leading bytes followed by `01 00 00 00 00 00 02`, scanned from
region base 1 with catalog offset 3: the window is `01 00 00 00 00 00 02 00`
followed by zeros and the shelf is `[0x01, 0x02]`. -/
theorem readShelf_even_positions_witness :
    ReadAt [0x0E, 0x07, 0x07, 0x07, 0x01, 0x00, 0x00, 0x00, 0x00, 0x00, 0x02] 0xB4
        (1 + (⟨"microgame", 0x120000, 3, 0x10000⟩ : medium).dataIndex)
        = [0x01, 0x00, 0x00, 0x00, 0x00, 0x00, 0x02, 0x00] ++ List.replicate 172 0
      ∧ readShelf [0x0E, 0x07, 0x07, 0x07, 0x01, 0x00, 0x00, 0x00, 0x00, 0x00, 0x02] 1
          (⟨"microgame", 0x120000, 3, 0x10000⟩ : medium) = [0x01, 0x02] :=
  ⟨by decide,
    (readShelf_even_positions [0x0E, 0x07, 0x07, 0x07, 0x01, 0x00, 0x00, 0x00, 0x00, 0x00, 0x02]
      1 (⟨"microgame", 0x120000, 3, 0x10000⟩ : medium)).2.2 (by decide)⟩

/-- C2. The shelf returned by `readShelf` has no zero byte, so each of its entries
is in 1..255, and has at most 90 entries; hence every entry that `main` hands to
`dumpItem` is in 1..255, and the `byte` subtraction `itemOffset-1` of
`getItemPos` never wraps on it. -/
theorem readShelf_entries_nonzero (file : File) (saveOffset : Nat) (m : medium) :
    (∀ b ∈ readShelf file saveOffset m, b ≠ 0 ∧ 1 ≤ b.val ∧ b.val ≤ 255)
      ∧ (readShelf file saveOffset m).length ≤ 90
      ∧ (∀ c ∈ mainDumpCalls file,
          c.1 ≠ 0 ∧ 1 ≤ c.1.val ∧ c.1.val ≤ 255 ∧ (c.1.val + 255) % 256 = c.1.val - 1) := by
  have key : ∀ (so : Nat) (d : medium) (b : Byte), b ∈ readShelf file so d →
      b ≠ 0 ∧ 1 ≤ b.val ∧ b.val ≤ 255 ∧ (b.val + 255) % 256 = b.val - 1 := by
    intro so d b hb
    have h0 := readShelf_ne_zero file so d b hb
    have h1 : b.val ≠ 0 := fun h => h0 (Fin.ext h)
    have h2 := b.isLt
    refine ⟨h0, ?_, ?_, ?_⟩ <;> omega
  refine ⟨fun b hb => ⟨(key _ _ b hb).1, (key _ _ b hb).2.1, (key _ _ b hb).2.2.1⟩,
    readShelf_length_le file saveOffset m, ?_⟩
  intro c hc
  unfold mainDumpCalls at hc
  simp only [] at hc
  split at hc
  · exact absurd hc (List.not_mem_nil c)
  · rw [List.mem_append, List.mem_append, List.mem_map, List.mem_map, List.mem_map] at hc
    rcases hc with (⟨e, he, rfl⟩ | ⟨e, he, rfl⟩) | ⟨e, he, rfl⟩ <;> exact key _ _ e he


/-! ## The payload offset -/

theorem getItemPos_eq_mod (e : Byte) (d : medium) (he : 1 ≤ e.val) :
    getItemPos e d = (d.dataStart + (e.val - 1) * d.dataSize) % 2 ^ 32 := by
  unfold getItemPos
  have h : (e.val + 255) % 256 = e.val - 1 := by
    have := e.isLt
    omega
  rw [h, Nat.add_mod_mod]

/-- C3, counterexample. For the descriptor with `dataStart = 0xFFFF0000` and
`dataSize = 0x10000` (both `uint32` values) and the entry 2, `getItemPos` is 0,
while `dataStart + (2 - 1) * dataSize` is `0x100000000`. -/
theorem getItemPos_formula_counterexample :
    medium.isUint32 (⟨"microgame", 0xFFFF0000, 0x6E0, 0x10000⟩ : medium)
      ∧ getItemPos 2 (⟨"microgame", 0xFFFF0000, 0x6E0, 0x10000⟩ : medium) = 0
      ∧ 0xFFFF0000 + ((2 : Byte).val - 1) * 0x10000 = 0x100000000
      ∧ ¬ (∀ (e : Byte) (d : medium), d.isUint32 → 1 ≤ e.val → e.val ≤ 255 →
            getItemPos e d = d.dataStart + (e.val - 1) * d.dataSize) := by
  refine ⟨by decide, by decide, by decide, ?_⟩
  intro h
  have h2 := h 2 (⟨"microgame", 0xFFFF0000, 0x6E0, 0x10000⟩ : medium) (by decide) (by decide) (by decide)
  revert h2
  decide

/-- C3, amended. For every shelf entry `e` in 1..255 and any descriptor `d`,
`getItemPos e d` is `d.dataStart + (e - 1) * d.dataSize` reduced modulo `2^32`,
and it is exactly `d.dataStart + (e - 1) * d.dataSize` whenever that value is
below `2^32`. -/
theorem getItemPos_formula (e : Byte) (d : medium) (he : 1 ≤ e.val) :
    getItemPos e d = (d.dataStart + (e.val - 1) * d.dataSize) % 2 ^ 32
      ∧ (d.dataStart + (e.val - 1) * d.dataSize < 2 ^ 32 →
          getItemPos e d = d.dataStart + (e.val - 1) * d.dataSize) := by
  refine ⟨getItemPos_eq_mod e d he, fun hlt => ?_⟩
  rw [getItemPos_eq_mod e d he, Nat.mod_eq_of_lt hlt]

/-- The entry 3 of the microgame descriptor: the offset is `0x120000 + 2 * 0x10000`. -/
theorem getItemPos_formula_witness :
    getItemPos 3 mediumMicrogame = 0x140000 :=
  ((getItemPos_formula 3 mediumMicrogame (by decide)).2 (by decide)).trans (by decide)

/-- C4, counterexample. For the descriptor with `dataStart = 0xFFFF0000` and
`dataSize = 0x10000 > 0`, the entries 1 < 2 have offsets `0xFFFF0000` and 0. -/
theorem getItemPos_increasing_counterexample :
    medium.isUint32 (⟨"microgame", 0xFFFF0000, 0x6E0, 0x10000⟩ : medium)
      ∧ getItemPos 1 (⟨"microgame", 0xFFFF0000, 0x6E0, 0x10000⟩ : medium) = 0xFFFF0000
      ∧ getItemPos 2 (⟨"microgame", 0xFFFF0000, 0x6E0, 0x10000⟩ : medium) = 0
      ∧ ¬ (∀ (d : medium) (e1 e2 : Byte), d.isUint32 → 0 < d.dataSize →
            1 ≤ e1.val → e1.val < e2.val → e2.val ≤ 255 →
            getItemPos e1 d < getItemPos e2 d) := by
  refine ⟨by decide, by decide, by decide, ?_⟩
  intro h
  have h2 := h (⟨"microgame", 0xFFFF0000, 0x6E0, 0x10000⟩ : medium) 1 2 (by decide) (by decide) (by decide) (by decide) (by decide)
  revert h2
  decide

/-- C4, amended. For a descriptor `d` with `dataSize > 0` and entries
`1 ≤ e1 < e2 ≤ 255` such that `d.dataStart + (e2 - 1) * d.dataSize` is below
`2^32` (the offset of the larger entry does not wrap),
`getItemPos e1 d < getItemPos e2 d`. -/
theorem getItemPos_strictMono (d : medium) (e1 e2 : Byte) (hsize : 0 < d.dataSize)
    (h1 : 1 ≤ e1.val) (h12 : e1.val < e2.val)
    (hfit : d.dataStart + (e2.val - 1) * d.dataSize < 2 ^ 32) :
    getItemPos e1 d < getItemPos e2 d := by
  have hlt : (e1.val - 1) * d.dataSize < (e2.val - 1) * d.dataSize :=
    Nat.mul_lt_mul_of_pos_right (by omega) hsize
  rw [getItemPos_eq_mod e1 d h1, getItemPos_eq_mod e2 d (by omega),
    Nat.mod_eq_of_lt hfit, Nat.mod_eq_of_lt (by omega)]
  omega

/-- The entries 1 and 255 of the comic descriptor. -/
theorem getItemPos_strictMono_witness :
    getItemPos 1 mediumComic < getItemPos 255 mediumComic :=
  getItemPos_strictMono mediumComic 1 255 (by decide) (by decide) (by decide) (by decide)


/-! ## The text-field decoder -/

theorem ReadAt_one (file : File) (pos : Nat) : (ReadAt file 1 pos).getD 0 0 = byteAt file pos := by
  rw [ReadAt_getD, if_pos (by decide), Nat.add_zero]

/-- The loop of `readString`, given enough fuel to reach `size`: it yields
`builtin` when it starts at index 0 on a zero byte, and otherwise extends
`datum` by the bytes before the first zero among those from index `i` on. -/
theorem readStringLoop_eq (file : File) (offset size : Nat) :
    ∀ (fuel i : Nat) (datum : List Byte), size ≤ fuel + i →
      readStringLoop file offset size fuel i datum
        = if i = 0 ∧ i < size ∧ fieldByte file offset i = 0 then builtin
          else datum ++ ((List.range' i (size - i)).map (fieldByte file offset)).takeWhile
            (fun b => decide (b ≠ 0)) := by
  intro fuel
  induction fuel with
  | zero =>
    intro i datum h
    have hsz : size - i = 0 := by omega
    rw [readStringLoop, if_neg (by omega), hsz]
    simp
  | succ fuel ih =>
    intro i datum h
    rw [readStringLoop]
    by_cases hi : i < size
    · have hsz : size - i = (size - (i + 1)) + 1 := by omega
      rw [if_pos hi, hsz, List.range'_succ, List.map_cons]
      simp only []
      rw [ReadAt_one]
      change (if fieldByte file offset i = 0 then _ else _) = _
      by_cases hb : fieldByte file offset i = 0
      · rw [if_pos hb]
        by_cases h0 : i = 0
        · rw [if_pos h0, if_pos ⟨h0, hi, hb⟩]
        · rw [if_neg h0, if_neg (fun hc => h0 hc.1), List.takeWhile_cons,
            if_neg (by simpa using hb), List.append_nil]
      · rw [if_neg hb, ih (i + 1) _ (by omega), if_neg (fun hc => absurd hc.1 (by omega)),
          if_neg (fun hc => hb hc.2.2), List.takeWhile_cons, if_pos (by simpa using hb),
          List.append_assoc]
        rfl
    · have hsz : size - i = 0 := by omega
      rw [if_neg hi, if_neg (fun hc => hi hc.2.1), hsz]
      simp

theorem fieldByte_mod (file : File) (pos i : Nat) :
    fieldByte file (pos % 2 ^ 32) i = byteAt file ((pos + i) % 2 ^ 32) := by
  unfold fieldByte
  rw [← Nat.add_mod]

/-- `readString` is the text decoding of the `size` bytes at the addresses
`getItemPos + dataOffset + i`, `i < size`, each reduced modulo `2^32`. -/
theorem readString_eq (file : File) (e : Byte) (dataOffset size : Nat) (d : medium) :
    readString file e dataOffset size d
      = textDecoding (wrapRead file size (getItemPos e d + dataOffset)) := by
  unfold readString
  simp only []
  rw [readStringLoop_eq file _ size size 0 [] (by omega), List.nil_append, Nat.sub_zero,
    ← List.range_eq_range']
  have hmap : (List.range size).map (fieldByte file ((getItemPos e d + dataOffset) % 2 ^ 32))
      = wrapRead file size (getItemPos e d + dataOffset) := by
    unfold wrapRead
    exact List.map_congr_left (fun i _ => fieldByte_mod file _ i)
  rw [hmap]
  unfold textDecoding
  cases size with
  | zero =>
    rw [if_neg (fun hc => absurd hc.2.1 (by omega))]
    simp [wrapRead]
  | succ n =>
    have hhead : (wrapRead file (n + 1) (getItemPos e d + dataOffset)).head?
        = some (fieldByte file ((getItemPos e d + dataOffset) % 2 ^ 32) 0) := by
      rw [fieldByte_mod]
      simp [wrapRead, List.range_succ_eq_map]
    rw [hhead]
    by_cases hb : fieldByte file ((getItemPos e d + dataOffset) % 2 ^ 32) 0 = 0
    · rw [if_pos ⟨rfl, Nat.succ_pos n, hb⟩, if_pos (by rw [hb])]
    · rw [if_neg (fun hc => hb hc.2.2), if_neg (fun hc => hb (Option.some.inj hc))]

theorem wrapRead_eq_ReadAt (file : File) (n off : Nat) (h : off + n ≤ 2 ^ 32) :
    wrapRead file n off = ReadAt file n off := by
  unfold wrapRead ReadAt
  apply List.map_congr_left
  intro i hi
  rw [List.mem_range] at hi
  rw [Nat.mod_eq_of_lt (by omega)]


theorem textDecoding_of_no_zero (g : Nat → Byte) (w : Nat) (h : ∀ i, i < w → g i ≠ 0) :
    textDecoding ((List.range w).map g) = (List.range w).map g := by
  have hall : ∀ b ∈ (List.range w).map g, b ≠ 0 := by
    intro b hb
    rw [List.mem_map] at hb
    obtain ⟨i, hi, rfl⟩ := hb
    exact h i (List.mem_range.mp hi)
  unfold textDecoding
  rw [if_neg, List.takeWhile_eq_self_iff]
  · intro b hb
    simpa using hall b hb
  · intro hc
    exact hall 0 (List.mem_of_mem_head? hc) rfl

theorem textDecoding_of_first_zero (g : Nat → Byte) (w k : Nat) (hk : k < w) (hz : g k = 0)
    (hb : ∀ j, j < k → g j ≠ 0) :
    textDecoding ((List.range w).map g) = if k = 0 then builtin else (List.range k).map g := by
  have hw : w = k + ((w - k - 1) + 1) := by omega
  have hsplit : (List.range w).map g
      = (List.range k).map g ++ (0 :: (List.range (w - k - 1)).map (fun i => g (k + (i + 1)))) := by
    conv_lhs => rw [hw, List.range_add, List.range_succ_eq_map]
    rw [List.map_append, List.map_map, List.map_cons, List.map_map]
    show _ ++ (g (k + 0) :: _) = _
    rw [Nat.add_zero, hz]
    rfl
  have hall : ∀ b ∈ (List.range k).map g, (fun b => decide (b ≠ 0)) b = true := by
    intro b hb'
    rw [List.mem_map] at hb'
    obtain ⟨i, hi, rfl⟩ := hb'
    simpa using hb i (List.mem_range.mp hi)
  have htake : ((List.range w).map g).takeWhile (fun b => decide (b ≠ 0))
      = (List.range k).map g := by
    rw [hsplit, List.takeWhile_append_of_pos hall, List.takeWhile_cons, if_neg (by simp),
      List.append_nil]
  unfold textDecoding
  by_cases h0 : k = 0
  · subst h0
    rw [if_pos rfl, if_pos]
    rw [hsplit]
    rfl
  · rw [if_neg h0, if_neg, htake]
    intro hc
    obtain ⟨k', rfl⟩ : ∃ k', k = k' + 1 := ⟨k - 1, by omega⟩
    rw [hsplit, List.range_succ_eq_map, List.map_cons] at hc
    exact hb 0 (Nat.succ_pos k') (Option.some.inj hc)

/-- C5, counterexample. For the one-byte file `41`, the entry 1 and the descriptor
with `dataStart = 0xFFFFFFCB`, `p = getItemPos` is `0xFFFFFFCB`; the 9 bytes at
`p + 0x35 = 0x100000000` lie past the end of the file, so their text decoding
is `builtin`, but `readBrand` computes the address in `uint32`, reads the file
from position 0 and returns `A`. -/
theorem field_reads_counterexample :
    medium.isUint32 (⟨"microgame", 0xFFFFFFCB, 0x6E0, 0x10000⟩ : medium)
      ∧ getItemPos 1 (⟨"microgame", 0xFFFFFFCB, 0x6E0, 0x10000⟩ : medium) = 0xFFFFFFCB
      ∧ readBrand [0x41] 1 (⟨"microgame", 0xFFFFFFCB, 0x6E0, 0x10000⟩ : medium) = [0x41]
      ∧ textDecoding (ReadAt [0x41] 9
          (getItemPos 1 (⟨"microgame", 0xFFFFFFCB, 0x6E0, 0x10000⟩ : medium) + 0x35))
          = ascii "builtin"
      ∧ ¬ (∀ (file : File) (e : Byte) (d : medium), d.isUint32 →
            readBrand file e d = textDecoding (ReadAt file 9 (getItemPos e d + 0x35))) := by
  refine ⟨by decide, by decide, by decide, by decide, ?_⟩
  intro h
  have h2 := h [0x41] 1 (⟨"microgame", 0xFFFFFFCB, 0x6E0, 0x10000⟩ : medium) (by decide)
  revert h2
  decide

/-- C5, amended. With `p = getItemPos e d`, every field is read at `p` plus its
fixed offset, each byte address being reduced modulo `2^32`: brand is the text
decoding of the 9 bytes from `p+0x35`, name of the 24 bytes from `p+0x1C`,
author of the 24 bytes from `p+0x48`, code the upper-cased text decoding of the
4 bytes from `p+0xCF`, itemNumberIndex the byte at `p+0xD4` and revision the
byte at `p+0xD`, both in 0..255; the same `p` serves all six reads. When
`p + 0xD4 < 2^32` no address wraps and the fields are the bytes of the file at
exactly `p` plus the offset (zero past the end of the file). -/
theorem field_reads (unicodeUpper : List Byte → List Byte) (file : File) (e : Byte)
    (d : medium) :
    (readBrand file e d = textDecoding (wrapRead file 9 (getItemPos e d + 0x35))
      ∧ readName file e d = textDecoding (wrapRead file 24 (getItemPos e d + 0x1C))
      ∧ readAuthor file e d = textDecoding (wrapRead file 24 (getItemPos e d + 0x48))
      ∧ readCode unicodeUpper file e d
          = ToUpper unicodeUpper (textDecoding (wrapRead file 4 (getItemPos e d + 0xCF)))
      ∧ readInt file e offsetItemNumber d = (byteAt file ((getItemPos e d + 0xD4) % 2 ^ 32)).val
      ∧ readInt file e offsetItemRevision d = (byteAt file ((getItemPos e d + 0xD) % 2 ^ 32)).val
      ∧ readInt file e offsetItemNumber d ≤ 255
      ∧ readInt file e offsetItemRevision d ≤ 255)
    ∧ (getItemPos e d + 0xD4 < 2 ^ 32 →
        readBrand file e d = textDecoding (ReadAt file 9 (getItemPos e d + 0x35))
        ∧ readName file e d = textDecoding (ReadAt file 24 (getItemPos e d + 0x1C))
        ∧ readAuthor file e d = textDecoding (ReadAt file 24 (getItemPos e d + 0x48))
        ∧ readCode unicodeUpper file e d
            = ToUpper unicodeUpper (textDecoding (ReadAt file 4 (getItemPos e d + 0xCF)))
        ∧ readInt file e offsetItemNumber d = (byteAt file (getItemPos e d + 0xD4)).val
        ∧ readInt file e offsetItemRevision d = (byteAt file (getItemPos e d + 0xD)).val) := by
  have hint : ∀ off, readInt file e off d = (byteAt file ((getItemPos e d + off) % 2 ^ 32)).val := by
    intro off
    unfold readInt
    simp only []
    rw [ReadAt_one]
  have hle : ∀ b : Byte, b.val ≤ 255 := fun b => by have := b.isLt; omega
  refine ⟨⟨readString_eq file e _ _ d, readString_eq file e _ _ d, readString_eq file e _ _ d,
    ?_, hint _, hint _, ?_, ?_⟩, ?_⟩
  · unfold readCode
    rw [readString_eq]
    rfl
  · rw [hint]; exact hle _
  · rw [hint]; exact hle _
  · intro hfit
    refine ⟨?_, ?_, ?_, ?_, ?_, ?_⟩
    · rw [← wrapRead_eq_ReadAt file 9 _ (by omega)]; exact readString_eq file e _ _ d
    · rw [← wrapRead_eq_ReadAt file 24 _ (by omega)]; exact readString_eq file e _ _ d
    · rw [← wrapRead_eq_ReadAt file 24 _ (by omega)]; exact readString_eq file e _ _ d
    · rw [← wrapRead_eq_ReadAt file 4 _ (by omega)]
      unfold readCode
      rw [readString_eq]
      rfl
    · rw [hint, offsetItemNumber, Nat.mod_eq_of_lt hfit]
    · rw [hint, offsetItemRevision, Nat.mod_eq_of_lt (by omega)]

/-- The entry 2 of the record descriptor on a two-byte file: no field address
wraps, and the brand is the text decoding of the 9 bytes at `p + 0x35`. -/
theorem field_reads_witness :
    getItemPos 2 mediumRecord + 0xD4 < 2 ^ 32
      ∧ readBrand [0x0E, 0x00] 2 mediumRecord
          = textDecoding (ReadAt [0x0E, 0x00] 9 (getItemPos 2 mediumRecord + 0x35)) :=
  ⟨by decide, ((field_reads id [0x0E, 0x00] 2 mediumRecord).2 (by decide)).1⟩


/-- C6. For any field offset and declared width `size ≥ 1`, when the first byte
of the field (the byte `readString` reads at index 0) is `0x00`, `readString`
returns exactly the text `builtin`, whatever bytes follow. -/
theorem readString_first_zero (file : File) (e : Byte) (dataOffset size : Nat) (d : medium)
    (hsize : 1 ≤ size)
    (hfirst : byteAt file ((getItemPos e d + dataOffset) % 2 ^ 32) = 0) :
    readString file e dataOffset size d = ascii "builtin" := by
  rw [readString_eq, wrapRead,
    textDecoding_of_first_zero (fun i => byteAt file ((getItemPos e d + dataOffset + i) % 2 ^ 32))
      size 0 (by omega) hfirst (fun j hj => absurd hj (Nat.not_lt_zero j)),
    if_pos rfl]
  rfl

/-- A brand field `00 41 42` at the start of the file: the bytes after the
leading zero are ignored. -/
theorem readString_first_zero_witness :
    readString [0x00, 0x41, 0x42] 1 0 9 (⟨"microgame", 0, 0x6E0, 0x10000⟩ : medium)
      = ascii "builtin" :=
  readString_first_zero [0x00, 0x41, 0x42] 1 0 9 (⟨"microgame", 0, 0x6E0, 0x10000⟩ : medium)
    (by decide) (by decide)

/-- C7. When none of the `size` bytes of a field is zero, `readString` returns
those bytes in order, a text of exactly `size` bytes. -/
theorem readString_no_zero (file : File) (e : Byte) (dataOffset size : Nat) (d : medium)
    (hnz : ∀ i, i < size → byteAt file ((getItemPos e d + dataOffset + i) % 2 ^ 32) ≠ 0) :
    readString file e dataOffset size d
        = (List.range size).map
            (fun i => byteAt file ((getItemPos e d + dataOffset + i) % 2 ^ 32))
      ∧ (readString file e dataOffset size d).length = size := by
  have h : readString file e dataOffset size d
      = (List.range size).map
          (fun i => byteAt file ((getItemPos e d + dataOffset + i) % 2 ^ 32)) := by
    rw [readString_eq, wrapRead, textDecoding_of_no_zero _ size hnz]
  refine ⟨h, ?_⟩
  rw [h, List.length_map, List.length_range]

/-- A 4-byte code field `61 62 30 31` at offset 2 of the record at position 0,
followed by more non-zero bytes: exactly the 4 bytes are returned. -/
theorem readString_no_zero_witness :
    readString [0x07, 0x07, 0x61, 0x62, 0x30, 0x31, 0x39, 0x39] 1 2 4
        (⟨"microgame", 0, 0x6E0, 0x10000⟩ : medium) = [0x61, 0x62, 0x30, 0x31]
      ∧ (readString [0x07, 0x07, 0x61, 0x62, 0x30, 0x31, 0x39, 0x39] 1 2 4
        (⟨"microgame", 0, 0x6E0, 0x10000⟩ : medium)).length = 4 :=
  readString_no_zero [0x07, 0x07, 0x61, 0x62, 0x30, 0x31, 0x39, 0x39] 1 2 4
    (⟨"microgame", 0, 0x6E0, 0x10000⟩ : medium) (by decide)

/-- C8, counterexample. On the empty file every field byte is zero, so the brand
field of width 9 has its first zero at position `k = 0 < 9`; `readString`
returns `builtin`, a text of length 7, not 0. -/
theorem readString_length_counterexample :
    byteAt [] ((getItemPos 1 mediumMicrogame + offsetBrand + 0) % 2 ^ 32) = 0
      ∧ readString [] 1 offsetBrand lenBrand mediumMicrogame = ascii "builtin"
      ∧ (readString [] 1 offsetBrand lenBrand mediumMicrogame).length = 7
      ∧ ¬ (∀ (file : File) (e : Byte) (dataOffset w : Nat) (d : medium) (k : Nat), k < w →
            byteAt file ((getItemPos e d + dataOffset + k) % 2 ^ 32) = 0 →
            (∀ j, j < k → byteAt file ((getItemPos e d + dataOffset + j) % 2 ^ 32) ≠ 0) →
            (readString file e dataOffset w d).length = k) := by
  refine ⟨by decide, by decide, by decide, ?_⟩
  intro h
  have h2 := h [] 1 offsetBrand lenBrand mediumMicrogame 0 (by decide) (by decide)
    (fun j hj => absurd hj (Nat.not_lt_zero j))
  revert h2
  decide

/-- C8, amended. For a field of declared width `w` whose first zero byte is at
position `k < w`: when `1 ≤ k`, `readString` returns the `k` bytes before that
zero, a text of length `k`; when `k = 0` it returns the text `builtin`, of
length 7. -/
theorem readString_terminated (file : File) (e : Byte) (dataOffset w : Nat) (d : medium)
    (k : Nat) (hk : k < w)
    (hzero : byteAt file ((getItemPos e d + dataOffset + k) % 2 ^ 32) = 0)
    (hbefore : ∀ j, j < k → byteAt file ((getItemPos e d + dataOffset + j) % 2 ^ 32) ≠ 0) :
    (1 ≤ k →
        readString file e dataOffset w d
            = (List.range k).map
                (fun i => byteAt file ((getItemPos e d + dataOffset + i) % 2 ^ 32))
          ∧ (readString file e dataOffset w d).length = k)
      ∧ (k = 0 →
        readString file e dataOffset w d = ascii "builtin"
          ∧ (readString file e dataOffset w d).length = 7) := by
  have h := textDecoding_of_first_zero
    (fun i => byteAt file ((getItemPos e d + dataOffset + i) % 2 ^ 32)) w k hk hzero hbefore
  rw [← wrapRead, ← readString_eq] at h
  constructor
  · intro h1
    rw [if_neg (by omega)] at h
    refine ⟨h, ?_⟩
    rw [h, List.length_map, List.length_range]
  · intro h0
    rw [if_pos h0] at h
    refine ⟨h, ?_⟩
    rw [h]
    rfl

/-- A name field `41 42 00 43` at the start of the file, terminated at `k = 2`:
the text is `AB`, of length 2. -/
theorem readString_terminated_witness :
    readString [0x41, 0x42, 0x00, 0x43] 1 0 24 (⟨"microgame", 0, 0x6E0, 0x10000⟩ : medium)
        = [0x41, 0x42]
      ∧ (readString [0x41, 0x42, 0x00, 0x43] 1 0 24
          (⟨"microgame", 0, 0x6E0, 0x10000⟩ : medium)).length = 2 :=
  (readString_terminated [0x41, 0x42, 0x00, 0x43] 1 0 24
    (⟨"microgame", 0, 0x6E0, 0x10000⟩ : medium) 2 (by decide) (by decide) (by decide)).1
    (by decide)


/-! ## The code field and the full code -/

theorem upperByte_val (b : Byte) :
    (upperByte b).val = if 0x61 ≤ b.val ∧ b.val ≤ 0x7A then b.val - 0x20 else b.val := by
  unfold upperByte
  by_cases h : 0x61 ≤ b.val ∧ b.val ≤ 0x7A
  · rw [if_pos h, if_pos h]
    show (b.val - 0x20) % 256 = b.val - 0x20
    have := b.isLt
    omega
  · rw [if_neg h, if_neg h]

theorem ToUpper_ascii (unicodeUpper : List Byte → List Byte) (s : List Byte)
    (h : ∀ b ∈ s, b.val < 0x80) : ToUpper unicodeUpper s = s.map upperByte := by
  unfold ToUpper
  rw [if_pos (List.all_eq_true.mpr (fun b hb => decide_eq_true (h b hb)))]
  split
  · rfl
  · rename_i hany
    have hid : s.map upperByte = s.map id := by
      apply List.map_congr_left
      intro b hb
      unfold upperByte
      rw [if_neg]
      · rfl
      · intro hlow
        exact hany (List.any_eq_true.mpr ⟨b, hb, decide_eq_true hlow⟩)
    rw [hid, List.map_id]

theorem upperByte_not_lower (b : Byte) :
    ¬ (0x61 ≤ (upperByte b).val ∧ (upperByte b).val ≤ 0x7A) := by
  rw [upperByte_val]
  split <;> omega

set_option maxRecDepth 1000000 in
theorem fmtZeroPad_four : ∀ n : Fin 257, fmtZeroPad 4 n.val = zeroPadded 4 n.val := by
  decide

set_option maxRecDepth 1000000 in
theorem fmtZeroPad_three : ∀ n : Fin 256, fmtZeroPad 3 n.val = zeroPadded 3 n.val := by
  decide

theorem readInt_le (file : File) (e : Byte) (off : Nat) (d : medium) :
    readInt file e off d ≤ 255 := by
  unfold readInt
  simp only []
  have := ((ReadAt file 1 ((getItemPos e d + off) % 2 ^ 32)).getD 0 0).isLt
  omega

/-- C9. When the raw text of the code field (the result of `readString` on the
4 bytes at offset `0xCF`) consists of ASCII bytes, `readCode` returns that text
with every lower-case letter `a`-`z` replaced by its upper-case counterpart
(the byte minus `0x20`) and every other byte unchanged, so the result has no
lower-case ASCII letter. In particular the raw text `ab01` gives `AB01`. -/
theorem readCode_upper (unicodeUpper : List Byte → List Byte) (file : File) (e : Byte)
    (d : medium) (hascii : ∀ b ∈ readString file e offsetCode 4 d, b.val < 0x80) :
    readCode unicodeUpper file e d = (readString file e offsetCode 4 d).map upperByte
      ∧ (∀ b : Byte,
          (upperByte b).val = if 0x61 ≤ b.val ∧ b.val ≤ 0x7A then b.val - 0x20 else b.val)
      ∧ (∀ b ∈ readCode unicodeUpper file e d, ¬ (0x61 ≤ b.val ∧ b.val ≤ 0x7A))
      ∧ (readString file e offsetCode 4 d = ascii "ab01" →
          readCode unicodeUpper file e d = ascii "AB01") := by
  have h : readCode unicodeUpper file e d = (readString file e offsetCode 4 d).map upperByte := by
    unfold readCode
    exact ToUpper_ascii unicodeUpper _ hascii
  refine ⟨h, upperByte_val, ?_, ?_⟩
  · intro b hb
    rw [h, List.mem_map] at hb
    obtain ⟨c, _, rfl⟩ := hb
    exact upperByte_not_lower c
  · intro hraw
    rw [h, hraw]
    decide

set_option maxRecDepth 100000 in
/-- The record at position 0 with the code field `61 62 30 31` at `0xCF`. -/
theorem readCode_upper_witness :
    readCode id (List.replicate 0xCF 0 ++ [0x61, 0x62, 0x30, 0x31]) 1
        (⟨"microgame", 0, 0x6E0, 0x10000⟩ : medium) = ascii "AB01" :=
  (readCode_upper id (List.replicate 0xCF 0 ++ [0x61, 0x62, 0x30, 0x31]) 1
    (⟨"microgame", 0, 0x6E0, 0x10000⟩ : medium) (by decide)).2.2.2 (by decide)

set_option maxRecDepth 100000 in
/-- C10. The full code is `G-` + code + `-` + (itemNumberIndex + 1 in decimal,
zero-padded to 4 digits) + `-` + (revision in decimal, zero-padded to 3
digits); the two bytes being in 0..255, the number part printed by `%04d` has
exactly 4 characters and the revision part printed by `%03d` exactly 3. With
the raw code `ab01`, itemNumberIndex 0 and revision 0 the full code is
`G-AB01-0001-000`; with itemNumberIndex 41 and revision 3 it ends in
`-0042-003`. -/
theorem fullcode_format (unicodeUpper : List Byte → List Byte) (file : File) (e : Byte)
    (d : medium) :
    fullcode unicodeUpper file e d
        = ascii "G-" ++ readCode unicodeUpper file e d ++ ascii "-"
          ++ zeroPadded 4 (readInt file e offsetItemNumber d + 1) ++ ascii "-"
          ++ zeroPadded 3 (readInt file e offsetItemRevision d)
      ∧ (fmtZeroPad 4 (readInt file e offsetItemNumber d + 1)).length = 4
      ∧ (fmtZeroPad 3 (readInt file e offsetItemRevision d)).length = 3
      ∧ (readString file e offsetCode 4 d = ascii "ab01" →
          readInt file e offsetItemNumber d = 0 → readInt file e offsetItemRevision d = 0 →
          fullcode unicodeUpper file e d = ascii "G-AB01-0001-000")
      ∧ (readInt file e offsetItemNumber d = 41 → readInt file e offsetItemRevision d = 3 →
          fullcode unicodeUpper file e d
            = ascii "G-" ++ readCode unicodeUpper file e d ++ ascii "-0042-003") := by
  have h4 : fmtZeroPad 4 (readInt file e offsetItemNumber d + 1)
      = zeroPadded 4 (readInt file e offsetItemNumber d + 1) :=
    fmtZeroPad_four ⟨readInt file e offsetItemNumber d + 1,
      Nat.lt_succ_of_le (Nat.succ_le_succ (readInt_le file e _ d))⟩
  have h3 : fmtZeroPad 3 (readInt file e offsetItemRevision d)
      = zeroPadded 3 (readInt file e offsetItemRevision d) :=
    fmtZeroPad_three ⟨readInt file e offsetItemRevision d,
      Nat.lt_succ_of_le (readInt_le file e _ d)⟩
  have hfull : fullcode unicodeUpper file e d
      = ascii "G-" ++ readCode unicodeUpper file e d ++ ascii "-"
        ++ zeroPadded 4 (readInt file e offsetItemNumber d + 1) ++ ascii "-"
        ++ zeroPadded 3 (readInt file e offsetItemRevision d) := by
    unfold fullcode
    simp only []
    rw [h4, h3]
  refine ⟨hfull, ?_, ?_, ?_, ?_⟩
  · rw [h4, zeroPadded, List.length_map, List.length_range]
  · rw [h3, zeroPadded, List.length_map, List.length_range]
  · intro hraw hn hr
    have hcode : readCode unicodeUpper file e d = ascii "AB01" := by
      unfold readCode
      rw [hraw, ToUpper_ascii unicodeUpper _ (by decide)]
      decide
    rw [hfull, hcode, hn, hr]
    decide
  · intro hn hr
    rw [hfull, hn, hr]
    simp only [List.append_assoc]
    rfl

set_option maxRecDepth 100000 in
/-- The record at position 0 with revision byte 3 at `0xD`, code field
`61 62 30 31` at `0xCF` and itemNumberIndex byte 41 at `0xD4`. -/
theorem fullcode_format_witness :
    fullcode id (List.replicate 0xD 0 ++ [0x03] ++ List.replicate 0xC1 0
        ++ [0x61, 0x62, 0x30, 0x31, 0x00, 0x29]) 1 (⟨"microgame", 0, 0x6E0, 0x10000⟩ : medium)
      = ascii "G-AB01-0042-003" :=
  (fullcode_format id (List.replicate 0xD 0 ++ [0x03] ++ List.replicate 0xC1 0
      ++ [0x61, 0x62, 0x30, 0x31, 0x00, 0x29]) 1
    (⟨"microgame", 0, 0x6E0, 0x10000⟩ : medium)).1.trans (by decide)


/-! ## The version locator and the region choice -/

theorem verSearch_eq (file : File) (offset : Nat) :
    verSearch file offset
      = (byteAt file (offset + 0x14)).val + (byteAt file (offset + 0x15)).val
        + (byteAt file (offset + 0x16)).val + (byteAt file (offset + 0x17)).val := by
  unfold verSearch
  simp only []
  have hr : List.range lenVersionStr = [0, 1, 2, 3] := by decide
  rw [hr]
  simp only [List.foldl_cons, List.foldl_nil]
  rw [ReadAt_getD, ReadAt_getD, ReadAt_getD, ReadAt_getD, if_pos (by decide), if_pos (by decide),
    if_pos (by decide), if_pos (by decide), Nat.zero_add]
  rfl

/-- C11. `verSearch` returns the sum of the four unsigned byte values at the
positions `regionOffset+0x14` to `regionOffset+0x17` of the container (a
position past its end counting as zero), and the score is in 0..1020. -/
theorem verSearch_sum (file : File) (regionOffset : Nat) :
    verSearch file regionOffset
        = (byteAt file (regionOffset + 0x14)).val + (byteAt file (regionOffset + 0x15)).val
          + (byteAt file (regionOffset + 0x16)).val + (byteAt file (regionOffset + 0x17)).val
      ∧ verSearch file regionOffset ≤ 1020 := by
  refine ⟨verSearch_eq file regionOffset, ?_⟩
  rw [verSearch_eq]
  have h0 := (byteAt file (regionOffset + 0x14)).isLt
  have h1 := (byteAt file (regionOffset + 0x15)).isLt
  have h2 := (byteAt file (regionOffset + 0x16)).isLt
  have h3 := (byteAt file (regionOffset + 0x17)).isLt
  omega

/-- C12. The region base chosen by `main` is `0x3000` exactly when the score at
`0x3000` is strictly greater than the score at 0, and 0 otherwise, in
particular when the two scores are equal; when the magic check passes, the
catalogs of the three categories are all scanned from that base. -/
theorem region_choice (file : File) :
    (mainSaveOffset file = 0x3000 ↔ verSearch file 0x3000 > verSearch file 0)
      ∧ (¬ verSearch file 0x3000 > verSearch file 0 → mainSaveOffset file = 0)
      ∧ (verSearch file 0x3000 = verSearch file 0 → mainSaveOffset file = 0)
      ∧ (compareBytes checkIsSav (ReadAt file 15 0) = true →
          mainDumpCalls file
            = (readShelf file (mainSaveOffset file) mediumMicrogame).map
                (fun e => (e, mediumMicrogame))
              ++ (readShelf file (mainSaveOffset file) mediumRecord).map
                (fun e => (e, mediumRecord))
              ++ (readShelf file (mainSaveOffset file) mediumComic).map
                (fun e => (e, mediumComic))) := by
  have hdef : mainSaveOffset file
      = if verSearch file 0x3000 > verSearch file 0 then 0x3000 else 0 := rfl
  refine ⟨?_, ?_, ?_, ?_⟩
  · rw [hdef]
    constructor
    · intro h
      by_contra hn
      rw [if_neg hn] at h
      exact absurd h (by decide)
    · intro h
      rw [if_pos h]
  · intro h
    rw [hdef, if_neg h]
  · intro h
    rw [hdef, if_neg (by omega)]
  · intro h
    have h15 : checkIsSav.length = 15 := rfl
    unfold mainDumpCalls
    simp only []
    rw [h15, h]
    rfl

/-- A file with score 1 at `0x14` and only zeros at `0x3014`: the scores differ
in favour of the primary region and the base is 0. -/
theorem region_choice_witness :
    mainSaveOffset (List.replicate 0x14 0 ++ [0x01]) = 0 :=
  (region_choice (List.replicate 0x14 0 ++ [0x01])).2.1 (by decide)


/-! ## The magic check -/

theorem compareBytesLoop_eq_true (a b : List Byte) :
    ∀ (fuel i : Nat),
      compareBytesLoop a b fuel i = true
        ↔ ∀ j, i ≤ j → j < a.length → j < i + fuel → a.getD j 0 = b.getD j 0 := by
  intro fuel
  induction fuel with
  | zero =>
    intro i
    rw [compareBytesLoop]
    exact ⟨fun _ j h1 _ h3 => absurd h3 (by omega), fun _ => rfl⟩
  | succ fuel ih =>
    intro i
    rw [compareBytesLoop]
    by_cases hi : i < a.length
    · rw [if_pos hi]
      by_cases hb : a.getD i 0 = b.getD i 0
      · rw [if_neg (not_not.mpr hb), ih (i + 1)]
        constructor
        · intro h j h1 h2 h3
          by_cases hj : j = i
          · rw [hj]; exact hb
          · exact h j (by omega) h2 (by omega)
        · intro h j h1 h2 h3
          exact h j (by omega) h2 (by omega)
      · rw [if_pos hb]
        constructor
        · intro h; exact absurd h (by decide)
        · intro h; exact absurd (h i (Nat.le_refl i) hi (by omega)) hb
    · rw [if_neg hi]
      exact ⟨fun _ j h1 h2 _ => absurd h2 (by omega), fun _ => rfl⟩

theorem compareBytes_eq_true (a b : List Byte) :
    compareBytes a b = true
      ↔ (a.length = b.length ∧ ∀ i, i < a.length → a.getD i 0 = b.getD i 0) := by
  unfold compareBytes
  by_cases hl : a.length = b.length
  · rw [if_neg (not_not.mpr hl), compareBytesLoop_eq_true]
    constructor
    · intro h
      exact ⟨hl, fun i hi => h i (Nat.zero_le i) hi (by omega)⟩
    · intro h j _ h2 _
      exact h.2 j h2
  · rw [if_pos hl]
    constructor
    · intro h; exact absurd h (by decide)
    · intro h; exact absurd h.1 hl

theorem eq_of_getD_eq (a b : List Byte) (hl : a.length = b.length)
    (h : ∀ i, i < a.length → a.getD i 0 = b.getD i 0) : a = b := by
  apply List.ext_getElem hl
  intro n h1 h2
  have := h n h1
  rw [List.getD_eq_getElem a 0 h1, List.getD_eq_getElem b 0 h2] at this
  exact this

/-- The magic check of `main` passes exactly when the first 15 bytes of the
file are the magic. -/
theorem magic_check_iff (file : File) :
    compareBytes checkIsSav (ReadAt file checkIsSav.length 0) = true
      ↔ file.take 15 = checkIsSav := by
  have h15 : checkIsSav.length = 15 := rfl
  rw [compareBytes_eq_true, ReadAt_length, h15]
  constructor
  · intro h
    have hb : ∀ i, i < 15 → checkIsSav.getD i 0 = byteAt file i := by
      intro i hi
      have := h.2 i hi
      rw [ReadAt_getD, if_pos hi, Nat.zero_add] at this
      exact this
    have hlen : 15 ≤ file.length := by
      by_contra hlt
      have h14 := hb 14 (by decide)
      unfold byteAt at h14
      rw [getD_zero_of_le file 14 (by omega)] at h14
      exact absurd h14 (by decide)
    apply eq_of_getD_eq
    · rw [List.length_take, h15]; omega
    · intro i hi
      rw [List.length_take] at hi
      have hi15 : i < 15 := by omega
      rw [hb i hi15, List.getD_eq_getElem?_getD, List.getElem?_take_of_lt hi15]
      unfold byteAt
      rw [List.getD_eq_getElem?_getD]
  · intro h
    refine ⟨rfl, fun i hi => ?_⟩
    rw [ReadAt_getD, if_pos hi, Nat.zero_add, ← h, List.getD_eq_getElem?_getD,
      List.getElem?_take_of_lt hi]
    unfold byteAt
    rw [List.getD_eq_getElem?_getD]

/-- C13. `compareBytes a b` is true exactly when `a` and `b` have the same length
and the same byte at every index. A container whose first 15 bytes are not the
magic `0E 00 00 00 00 00 00 00 44 53 4D 49 4F 5F 53`, in particular one shorter
than 15 bytes, makes the run stop before any `dumpItem` call and leaves the
output files as they were; a container that begins with the magic passes the
check. -/
theorem magic_gate (cfg : Config) (unicodeUpper : List Byte → List Byte)
    (canCreate : List Byte → Bool) (file : File) (fs : FS) :
    (∀ a b : List Byte,
        compareBytes a b = true
          ↔ (a.length = b.length ∧ ∀ i, i < a.length → a.getD i 0 = b.getD i 0))
      ∧ (file.take 15 ≠ checkIsSav →
          mainDumpCalls file = [] ∧ main cfg unicodeUpper canCreate file fs = fs)
      ∧ (file.length < 15 →
          mainDumpCalls file = [] ∧ main cfg unicodeUpper canCreate file fs = fs)
      ∧ (file.take 15 = checkIsSav →
          compareBytes checkIsSav (ReadAt file checkIsSav.length 0) = true) := by
  have hrej : file.take 15 ≠ checkIsSav →
      mainDumpCalls file = [] ∧ main cfg unicodeUpper canCreate file fs = fs := by
    intro hne
    have hfalse : compareBytes checkIsSav (ReadAt file checkIsSav.length 0) = false := by
      cases hc : compareBytes checkIsSav (ReadAt file checkIsSav.length 0) with
      | false => rfl
      | true => exact absurd ((magic_check_iff file).mp hc) hne
    have hcalls : mainDumpCalls file = [] := by
      unfold mainDumpCalls
      simp only []
      rw [hfalse]
      rfl
    refine ⟨hcalls, ?_⟩
    unfold main
    rw [hcalls]
    rfl
  refine ⟨compareBytes_eq_true, hrej, ?_, (magic_check_iff file).mpr⟩
  intro hshort
  apply hrej
  intro heq
  have hlen := congrArg List.length heq
  rw [List.length_take] at hlen
  have h15 : checkIsSav.length = 15 := rfl
  omega

/-- The 14-byte file that is the magic without its last byte: rejected, no
output file appears. -/
theorem magic_gate_witness :
    mainDumpCalls [0x0E, 0x00, 0x00, 0x00, 0x00, 0x00, 0x00, 0x00, 0x44, 0x53, 0x4D, 0x49,
        0x4F, 0x5F] = []
      ∧ main defaultConfig id (fun _ => true)
          [0x0E, 0x00, 0x00, 0x00, 0x00, 0x00, 0x00, 0x00, 0x44, 0x53, 0x4D, 0x49, 0x4F, 0x5F]
          (fun _ => none) = (fun _ => none) :=
  (magic_gate defaultConfig id (fun _ => true)
    [0x0E, 0x00, 0x00, 0x00, 0x00, 0x00, 0x00, 0x00, 0x44, 0x53, 0x4D, 0x49, 0x4F, 0x5F]
    (fun _ => none)).2.2.1 (by decide)


/-! ## The payload copy -/

theorem byteAt_drop (file : File) (k i : Nat) :
    byteAt file (k + i) = (file.drop k).getD i 0 := by
  unfold byteAt
  rw [List.getD_eq_getElem?_getD, List.getD_eq_getElem?_getD, List.getElem?_drop]

/-- C15, counterexample. The file of `0x15` bytes whose last byte, at position
`0x14`, is 5 ends before `0 + 0x18`, so the read of the 4-byte field at `0x14`
is short; `verSearch` returns 5, not 0. -/
theorem verSearch_truncated_counterexample :
    (List.replicate 0x14 (0 : Byte) ++ [0x05]).length < 0 + 0x18
      ∧ verSearch (List.replicate 0x14 0 ++ [0x05]) 0 = 5
      ∧ ¬ (∀ (file : File) (regionOffset : Nat), file.length < regionOffset + 0x18 →
            verSearch file regionOffset = 0) := by
  refine ⟨by decide, by decide, ?_⟩
  intro h
  have h2 := h (List.replicate 0x14 0 ++ [0x05]) 0 (by decide)
  revert h2
  decide

/-- C15, amended. When the container ends before `regionOffset + 0x18`,
`verSearch` still returns a score: the sum of the bytes of the container from
position `regionOffset + 0x14` on, that is of the bytes of the field that exist,
the missing ones counting as zero; the score is 0 when the container ends at or
before `regionOffset + 0x14`. -/
theorem verSearch_truncated (file : File) (regionOffset : Nat)
    (hshort : file.length < regionOffset + 0x18) :
    verSearch file regionOffset
        = ((file.drop (regionOffset + 0x14)).map (fun b => b.val)).sum
      ∧ (file.length ≤ regionOffset + 0x14 → verSearch file regionOffset = 0) := by
  have hsum : verSearch file regionOffset
      = ((file.drop (regionOffset + 0x14)).map (fun b => b.val)).sum := by
    have hlen : (file.drop (regionOffset + 0x14)).length ≤ 3 := by
      rw [List.length_drop]; omega
    rw [verSearch_eq]
    have h1 := byteAt_drop file (regionOffset + 0x14) 1
    have h2 := byteAt_drop file (regionOffset + 0x14) 2
    have h3 := byteAt_drop file (regionOffset + 0x14) 3
    rw [byteAt_drop file (regionOffset + 0x14) 0] at *
    rw [show regionOffset + 0x15 = regionOffset + 0x14 + 1 from rfl,
      show regionOffset + 0x16 = regionOffset + 0x14 + 2 from rfl,
      show regionOffset + 0x17 = regionOffset + 0x14 + 3 from rfl, h1, h2, h3]
    generalize file.drop (regionOffset + 0x14) = l at hlen
    match l, hlen with
    | [], _ => rfl
    | [a], _ => simp [List.getD]
    | [a, b], _ => simp [List.getD]
    | [a, b, c], _ => simp [List.getD]; omega
    | _ :: _ :: _ :: _ :: _, h => exact absurd h (by simp)
  refine ⟨hsum, fun hle => ?_⟩
  rw [hsum, List.drop_eq_nil_of_le hle]
  rfl

/-- A file of `0x16` bytes ending in `05 07` at positions `0x14` and `0x15`:
the short read gives the score 12. -/
theorem verSearch_truncated_witness :
    verSearch (List.replicate 0x14 0 ++ [0x05, 0x07]) 0 = 12 :=
  (verSearch_truncated (List.replicate 0x14 0 ++ [0x05, 0x07]) 0 (by decide)).1.trans
    (by decide)


/-! ## The length of the code -/

theorem takeWhile_length_le (p : Byte → Bool) (l : List Byte) :
    (l.takeWhile p).length ≤ l.length := by
  induction l with
  | nil => exact Nat.le_refl 0
  | cons a l ih =>
    rw [List.takeWhile_cons]
    split
    · exact Nat.succ_le_succ ih
    · exact Nat.zero_le _

theorem readString_length_le (file : File) (e : Byte) (dataOffset size : Nat) (d : medium)
    (hfirst : byteAt file ((getItemPos e d + dataOffset) % 2 ^ 32) ≠ 0) :
    (readString file e dataOffset size d).length ≤ size := by
  rw [readString_eq]
  unfold textDecoding
  have hlen : (wrapRead file size (getItemPos e d + dataOffset)).length = size := by
    simp [wrapRead]
  rw [if_neg]
  · calc (List.takeWhile _ _).length
        ≤ (wrapRead file size (getItemPos e d + dataOffset)).length := takeWhile_length_le _ _
      _ = size := hlen
  · intro hc
    cases size with
    | zero => simp [wrapRead] at hc
    | succ n =>
      apply hfirst
      have : (wrapRead file (n + 1) (getItemPos e d + dataOffset)).head?
          = some (byteAt file ((getItemPos e d + dataOffset + 0) % 2 ^ 32)) := by
        simp [wrapRead, List.range_succ_eq_map]
      rw [this] at hc
      exact Option.some.inj hc

theorem readString_of_first_zero (file : File) (e : Byte) (dataOffset size : Nat) (d : medium)
    (hsize : 1 ≤ size)
    (hfirst : byteAt file ((getItemPos e d + dataOffset) % 2 ^ 32) = 0) :
    readString file e dataOffset size d = builtin := by
  rw [readString_eq, wrapRead,
    textDecoding_of_first_zero (fun i => byteAt file ((getItemPos e d + dataOffset + i) % 2 ^ 32))
      size 0 (by omega) hfirst (fun j hj => absurd hj (Nat.not_lt_zero j)),
    if_pos rfl]

theorem readString_length_of_no_zero (file : File) (e : Byte) (dataOffset size : Nat)
    (d : medium)
    (hnz : ∀ i, i < size → byteAt file ((getItemPos e d + dataOffset + i) % 2 ^ 32) ≠ 0) :
    (readString file e dataOffset size d).length = size := by
  rw [readString_eq, wrapRead, textDecoding_of_no_zero _ size hnz, List.length_map,
    List.length_range]

theorem ToUpper_ascii_length (unicodeUpper : List Byte → List Byte) (s : List Byte)
    (h : ∀ b ∈ s, b.val < 0x80) : (ToUpper unicodeUpper s).length = s.length := by
  rw [ToUpper_ascii unicodeUpper s h, List.length_map]

/-- C16, counterexample. On the empty file the code field starts with a zero
byte, and the code of the entry 1 of the microgame descriptor is `BUILTIN`, a
text of 7 characters, not 4. -/
theorem readCode_length_counterexample :
    readCode id [] 1 mediumMicrogame = ascii "BUILTIN"
      ∧ (readCode id [] 1 mediumMicrogame).length = 7
      ∧ ¬ (∀ (unicodeUpper : List Byte → List Byte) (file : File) (e : Byte) (d : medium),
            (readCode unicodeUpper file e d).length = 4) := by
  refine ⟨by decide, by decide, ?_⟩
  intro h
  have h2 := h id [] 1 mediumMicrogame
  revert h2
  decide

set_option maxRecDepth 100000 in
/-- C16, amended. The code is the 7-character text `BUILTIN` when the first byte
of the 4-byte code field is zero. Otherwise, when the raw text is ASCII, the
code has the length of the raw text, at most 4, and it has exactly 4
characters when none of the 4 bytes of the field is zero. -/
theorem readCode_length (unicodeUpper : List Byte → List Byte) (file : File) (e : Byte)
    (d : medium) :
    (byteAt file ((getItemPos e d + offsetCode) % 2 ^ 32) = 0 →
        readCode unicodeUpper file e d = ascii "BUILTIN"
          ∧ (readCode unicodeUpper file e d).length = 7)
      ∧ (byteAt file ((getItemPos e d + offsetCode) % 2 ^ 32) ≠ 0 →
          (∀ b ∈ readString file e offsetCode 4 d, b.val < 0x80) →
          (readCode unicodeUpper file e d).length = (readString file e offsetCode 4 d).length
            ∧ (readCode unicodeUpper file e d).length ≤ 4)
      ∧ ((∀ i, i < 4 → byteAt file ((getItemPos e d + offsetCode + i) % 2 ^ 32) ≠ 0) →
          (∀ b ∈ readString file e offsetCode 4 d, b.val < 0x80) →
          (readCode unicodeUpper file e d).length = 4) := by
  refine ⟨?_, ?_, ?_⟩
  · intro h0
    have hraw : readString file e offsetCode 4 d = ascii "builtin" :=
      readString_of_first_zero file e offsetCode 4 d (by decide) h0
    have hcode : readCode unicodeUpper file e d = ascii "BUILTIN" := by
      unfold readCode
      rw [hraw, ToUpper_ascii unicodeUpper _ (by decide)]
      decide
    refine ⟨hcode, ?_⟩
    rw [hcode]
    rfl
  · intro h0 hascii
    have hlen : (readCode unicodeUpper file e d).length
        = (readString file e offsetCode 4 d).length := by
      unfold readCode
      exact ToUpper_ascii_length unicodeUpper _ hascii
    refine ⟨hlen, ?_⟩
    rw [hlen]
    exact readString_length_le file e offsetCode 4 d h0
  · intro hnz hascii
    unfold readCode
    rw [ToUpper_ascii_length unicodeUpper _ hascii]
    exact readString_length_of_no_zero file e offsetCode 4 d hnz


set_option maxRecDepth 100000 in
/-- A code field `61 62 00 00` at `0xCF` of the record at position 0: the code
has the 2 characters of the raw text. -/
theorem readCode_length_witness :
    (readCode id (List.replicate 0xCF 0 ++ [0x61, 0x62]) 1
        (⟨"microgame", 0, 0x6E0, 0x10000⟩ : medium)).length
        = (readString (List.replicate 0xCF 0 ++ [0x61, 0x62]) 1 offsetCode 4
            (⟨"microgame", 0, 0x6E0, 0x10000⟩ : medium)).length
      ∧ (readCode id (List.replicate 0xCF 0 ++ [0x61, 0x62]) 1
          (⟨"microgame", 0, 0x6E0, 0x10000⟩ : medium)).length ≤ 4 :=
  (readCode_length id (List.replicate 0xCF 0 ++ [0x61, 0x62]) 1
    (⟨"microgame", 0, 0x6E0, 0x10000⟩ : medium)).2.1 (by decide) (by decide)


/-! ## The sentinel on zero-filled records -/

theorem readInt_eq (file : File) (e : Byte) (off : Nat) (d : medium) :
    readInt file e off d = (byteAt file ((getItemPos e d + off) % 2 ^ 32)).val := by
  unfold readInt
  simp only []
  rw [ReadAt_one]

set_option maxRecDepth 100000 in
/-- C18, counterexample. First, the one-byte file `41` with the descriptor whose
`dataStart` is `0xFFFFFFCB`: the record of the entry 1 starts at `0xFFFFFFCB`,
past the end of the file, yet the brand address wraps to 0 and the brand is
`A`. Second, the descriptor with 1-byte items at position 0 and a file with a
zero byte at position 0 and `41` at `0x35`: the record is all zero, yet the
brand is `A`. -/
theorem sentinel_counterexample :
    ([0x41] : File).length ≤ getItemPos 1 (⟨"microgame", 0xFFFFFFCB, 0x6E0, 0x10000⟩ : medium)
      ∧ readBrand [0x41] 1 (⟨"microgame", 0xFFFFFFCB, 0x6E0, 0x10000⟩ : medium) = ascii "A"
      ∧ (∀ i, i < (⟨"microgame", 0, 0x6E0, 1⟩ : medium).dataSize →
          byteAt (List.replicate 0x35 0 ++ [0x41])
            (getItemPos 1 (⟨"microgame", 0, 0x6E0, 1⟩ : medium) + i) = 0)
      ∧ readBrand (List.replicate 0x35 0 ++ [0x41]) 1 (⟨"microgame", 0, 0x6E0, 1⟩ : medium)
          = ascii "A"
      ∧ ¬ (∀ (file : File) (e : Byte) (d : medium), d.isUint32 →
            (file.length ≤ getItemPos e d
              ∨ ∀ i, i < d.dataSize → byteAt file (getItemPos e d + i) = 0) →
            readBrand file e d = ascii "builtin") := by
  refine ⟨by decide, by decide, by decide, by decide, ?_⟩
  intro h
  have h2 := h [0x41] 1 (⟨"microgame", 0xFFFFFFCB, 0x6E0, 0x10000⟩ : medium) (by decide)
    (Or.inl (by decide))
  revert h2
  decide

set_option maxRecDepth 100000 in
/-- C18, amended. When no field address wraps (`p + 0xD4 < 2^32` for
`p = getItemPos e d`) and the record lies entirely past the end of the
container, or is all zero bytes and covers the fields (`dataSize ≥ 0xD5`), the
decoder gives brand = name = author = `builtin`, code = `BUILTIN`,
itemNumberIndex = 0, revision = 0 and fullCode = `G-BUILTIN-0001-000`. Both
conditions hold for the three built-in descriptors. -/
theorem sentinel_on_zero_record (unicodeUpper : List Byte → List Byte) (file : File)
    (e : Byte) (d : medium) (hfit : getItemPos e d + 0xD4 < 2 ^ 32)
    (hrec : file.length ≤ getItemPos e d
      ∨ (0xD5 ≤ d.dataSize ∧ ∀ i, i < d.dataSize → byteAt file (getItemPos e d + i) = 0)) :
    readBrand file e d = ascii "builtin"
      ∧ readName file e d = ascii "builtin"
      ∧ readAuthor file e d = ascii "builtin"
      ∧ readCode unicodeUpper file e d = ascii "BUILTIN"
      ∧ readInt file e offsetItemNumber d = 0
      ∧ readInt file e offsetItemRevision d = 0
      ∧ fullcode unicodeUpper file e d = ascii "G-BUILTIN-0001-000" := by
  have hz : ∀ off, off ≤ 0xD4 → byteAt file ((getItemPos e d + off) % 2 ^ 32) = 0 := by
    intro off hoff
    rw [Nat.mod_eq_of_lt (by omega)]
    rcases hrec with h | h
    · exact getD_zero_of_le file _ (by omega)
    · exact h.2 off (by omega)
  have hcode : readCode unicodeUpper file e d = ascii "BUILTIN" := by
    unfold readCode
    rw [readString_of_first_zero file e offsetCode 4 d (by decide) (hz _ (by decide)),
      ToUpper_ascii unicodeUpper _ (by decide)]
    decide
  have hnum : readInt file e offsetItemNumber d = 0 := by
    rw [readInt_eq, hz _ (by decide)]; rfl
  have hrev : readInt file e offsetItemRevision d = 0 := by
    rw [readInt_eq, hz _ (by decide)]; rfl
  refine ⟨readString_of_first_zero file e offsetBrand lenBrand d (by decide) (hz _ (by decide)),
    readString_of_first_zero file e offsetName lenName d (by decide) (hz _ (by decide)),
    readString_of_first_zero file e offsetAuthor lenAuthor d (by decide) (hz _ (by decide)),
    hcode, hnum, hrev, ?_⟩
  unfold fullcode
  simp only []
  rw [hcode, hnum, hrev]
  decide

/-- The entry 2 of the comic descriptor on a file that holds only the magic: the
record lies past the end of the file and the full code is the sentinel one. -/
theorem sentinel_on_zero_record_witness :
    fullcode id checkIsSav 2 mediumComic = ascii "G-BUILTIN-0001-000" :=
  (sentinel_on_zero_record id checkIsSav 2 mediumComic (by decide) (Or.inl (by decide))).2.2.2.2.2.2


/-! ## The formatted name -/

theorem ReadAt_append_right (head tail : List Byte) (n k : Nat) :
    ReadAt (head ++ tail) n (head.length + k) = ReadAt tail n k := by
  unfold ReadAt
  apply List.map_congr_left
  intro i _
  unfold byteAt
  rw [List.getD_append_right head tail 0 _ (by omega)]
  congr 1
  omega

theorem tokenCatalog_length : tokenCatalog.length = 0x6E1 := by
  unfold tokenCatalog
  rw [List.length_append, List.length_append, List.length_replicate]
  rfl

theorem tokenSaveHead_length : tokenSaveHead.length = 0x120000 := by
  unfold tokenSaveHead
  rw [List.length_append, List.length_replicate, tokenCatalog_length]

/-- A field of the entry 1 of the microgame descriptor in `tokenSave` is the
text decoding of the bytes of `tokenRecord` from the field offset on. -/
theorem tokenSave_readString (dataOffset size : Nat) (h : dataOffset + size ≤ 0x100) :
    readString tokenSave 1 dataOffset size mediumMicrogame
      = textDecoding (ReadAt tokenRecord size dataOffset) := by
  have hp : getItemPos 1 mediumMicrogame = tokenSaveHead.length := by
    rw [tokenSaveHead_length]; decide
  rw [readString_eq, wrapRead_eq_ReadAt _ _ _ (by rw [hp, tokenSaveHead_length]; omega), hp,
    tokenSave, ReadAt_append_right]

theorem tokenSave_readInt (dataOffset : Nat) (h : dataOffset < 0x100) :
    readInt tokenSave 1 dataOffset mediumMicrogame = (byteAt tokenRecord dataOffset).val := by
  have hp : getItemPos 1 mediumMicrogame = tokenSaveHead.length := by
    rw [tokenSaveHead_length]; decide
  unfold readInt
  simp only []
  rw [Nat.mod_eq_of_lt (by rw [hp, tokenSaveHead_length]; omega), hp, tokenSave,
    ReadAt_append_right, ReadAt_one]

set_option maxRecDepth 100000 in
theorem tokenSave_fields (unicodeUpper : List Byte → List Byte) :
    readBrand tokenSave 1 mediumMicrogame = ascii "builtin"
      ∧ readName tokenSave 1 mediumMicrogame = ascii "\x7bauthor\x7d"
      ∧ readAuthor tokenSave 1 mediumMicrogame = ascii "Bob"
      ∧ fullcode unicodeUpper tokenSave 1 mediumMicrogame = ascii "G-AB01-0001-000" := by
  refine ⟨?_, ?_, ?_, ?_⟩
  · unfold readBrand
    rw [tokenSave_readString _ _ (by decide)]
    decide
  · unfold readName
    rw [tokenSave_readString _ _ (by decide)]
    decide
  · unfold readAuthor
    rw [tokenSave_readString _ _ (by decide)]
    decide
  · have hraw : textDecoding (ReadAt tokenRecord 4 offsetCode) = ascii "ab01" := by decide
    unfold fullcode readCode
    simp only []
    rw [tokenSave_readString _ _ (by decide), tokenSave_readInt _ (by decide),
      tokenSave_readInt _ (by decide), hraw, ToUpper_ascii unicodeUpper _ (by decide)]
    decide

set_option maxRecDepth 100000 in
theorem tokenSave_name (unicodeUpper : List Byte → List Byte) :
    dumpItemName defaultConfig unicodeUpper tokenSave 1 mediumMicrogame
      = ascii "G-AB01-0001-000 - Bob" := by
  unfold dumpItemName
  simp only []
  rw [(tokenSave_fields unicodeUpper).1, (tokenSave_fields unicodeUpper).2.1,
    (tokenSave_fields unicodeUpper).2.2.1, (tokenSave_fields unicodeUpper).2.2.2]
  decide

theorem replicate_getD_zero (n i : Nat) : (List.replicate n (0 : Byte)).getD i 0 = 0 := by
  rw [List.getD_eq_getElem?_getD, List.getElem?_replicate]
  split <;> rfl

/-- Before the record at `0x120000`, `tokenSave` is `tokenCatalog` followed by zeros. -/
theorem tokenSave_byteAt (pos : Nat) (h : pos < 0x120000) :
    byteAt tokenSave pos = byteAt tokenCatalog pos := by
  unfold byteAt tokenSave
  rw [List.getD_append _ _ _ _ (by rw [tokenSaveHead_length]; exact h)]
  unfold tokenSaveHead
  by_cases hp : pos < tokenCatalog.length
  · rw [List.getD_append _ _ _ _ hp]
  · rw [List.getD_append_right _ _ _ _ (by omega), replicate_getD_zero,
      getD_zero_of_le _ _ (by omega)]

theorem tokenCatalog_byteAt_zero (pos : Nat) (h : 0x6E1 ≤ pos) : byteAt tokenCatalog pos = 0 :=
  getD_zero_of_le _ _ (by rw [tokenCatalog_length]; exact h)

set_option maxRecDepth 100000 in
theorem tokenSave_verSearch (offset : Nat) (h : offset = 0 ∨ offset = 0x3000) :
    verSearch tokenSave offset = 0 := by
  rw [verSearch_eq]
  rcases h with h | h
  · rw [h, tokenSave_byteAt _ (by decide), tokenSave_byteAt _ (by decide),
      tokenSave_byteAt _ (by decide), tokenSave_byteAt _ (by decide)]
    decide
  · rw [h, tokenSave_byteAt _ (by decide), tokenSave_byteAt _ (by decide),
      tokenSave_byteAt _ (by decide), tokenSave_byteAt _ (by decide),
      tokenCatalog_byteAt_zero _ (by decide), tokenCatalog_byteAt_zero _ (by decide),
      tokenCatalog_byteAt_zero _ (by decide), tokenCatalog_byteAt_zero _ (by decide)]
    rfl

theorem tokenSave_readShelf_empty (m : medium) (h1 : 0x6E1 ≤ m.dataIndex)
    (h2 : m.dataIndex < 0x10000) : readShelf tokenSave 0 m = [] := by
  rw [readShelf_eq]
  apply nonZero_map_zero
  intro k hk
  rw [List.mem_range] at hk
  rw [tokenSave_byteAt _ (by omega), tokenCatalog_byteAt_zero _ (by omega)]

set_option maxRecDepth 100000 in
theorem tokenSave_readShelf_microgame : readShelf tokenSave 0 mediumMicrogame = [0x01] := by
  rw [readShelf_eq, List.range_succ_eq_map, List.map_cons, List.map_map]
  have h0 : byteAt tokenSave (0 + mediumMicrogame.dataIndex + 2 * 0) = 1 := by
    rw [tokenSave_byteAt _ (by decide)]
    decide
  rw [h0]
  unfold nonZero
  rw [List.filter_cons, if_pos (by decide)]
  have hrest := nonZero_map_zero
    ((fun k => byteAt tokenSave (0 + mediumMicrogame.dataIndex + 2 * k)) ∘ Nat.succ)
    (List.range 89) (by
      intro k hk
      rw [List.mem_range] at hk
      show byteAt tokenSave (0 + mediumMicrogame.dataIndex + 2 * (k + 1)) = 0
      have hidx : mediumMicrogame.dataIndex = 0x6E0 := rfl
      rw [tokenSave_byteAt _ (by omega), tokenCatalog_byteAt_zero _ (by omega)])
  unfold nonZero at hrest
  rw [hrest]

theorem tokenSave_calls : mainDumpCalls tokenSave = [(0x01, mediumMicrogame)] := by
  have hmagic : compareBytes checkIsSav (ReadAt tokenSave checkIsSav.length 0) = true := by
    rw [magic_check_iff]
    unfold tokenSave tokenSaveHead tokenCatalog
    rw [List.append_assoc, List.append_assoc, List.append_assoc]
    exact List.take_left' rfl
  have hbase : mainSaveOffset tokenSave = 0 := by
    unfold mainSaveOffset
    simp only []
    rw [tokenSave_verSearch offsetV1 (Or.inl rfl), tokenSave_verSearch offsetV2 (Or.inr rfl)]
    rfl
  unfold mainDumpCalls
  simp only []
  rw [hmagic, hbase, tokenSave_readShelf_microgame,
    tokenSave_readShelf_empty mediumRecord (by decide) (by decide),
    tokenSave_readShelf_empty mediumComic (by decide) (by decide)]
  rfl


set_option maxRecDepth 100000 in
theorem tokenSave_fileName (unicodeUpper : List Byte → List Byte) :
    dumpItemFileName defaultConfig unicodeUpper tokenSave 1 mediumMicrogame
      = ascii "out/microgame/G-AB01-0001-000 - Bob.mio" := by
  unfold dumpItemFileName
  simp only []
  rw [tokenSave_name]
  decide

/-- A pattern `{` + lower-case letter + ... cannot start inside a stretch of
bytes that has no lower-case letter and is followed by a byte that is neither
`{` nor a lower-case letter: the search for it resumes after that byte. -/
theorem replaceFirst_skip (c x : Byte) (rest new s : List Byte)
    (hc : 0x61 ≤ c.val ∧ c.val ≤ 0x7A) (hx : x ≠ 0x7B)
    (hxl : ¬ (0x61 ≤ x.val ∧ x.val ≤ 0x7A)) :
    ∀ q : List Byte, (∀ b ∈ q, ¬ (0x61 ≤ b.val ∧ b.val ≤ 0x7A)) →
      replaceFirst (q ++ x :: s) (0x7B :: c :: rest) new
        = q ++ x :: replaceFirst s (0x7B :: c :: rest) new := by
  intro q
  induction q with
  | nil =>
    intro _
    show replaceFirst (x :: s) (0x7B :: c :: rest) new = _
    rw [replaceFirst, if_neg]
    · rfl
    · intro hp
      rw [List.isPrefixOf, Bool.and_eq_true] at hp
      exact hx (eq_of_beq hp.1).symm
  | cons y q ih =>
    intro hq
    have hq2 : ∀ b ∈ q, ¬ (0x61 ≤ b.val ∧ b.val ≤ 0x7A) :=
      fun b hb => hq b (List.mem_cons_of_mem y hb)
    show replaceFirst (y :: (q ++ x :: s)) (0x7B :: c :: rest) new = _
    rw [replaceFirst, if_neg, ih hq2]
    · rfl
    · intro hp
      rw [List.isPrefixOf, Bool.and_eq_true] at hp
      have h2 := hp.2
      cases q with
      | nil =>
        change List.isPrefixOf (c :: rest) (x :: s) = true at h2
        rw [List.isPrefixOf, Bool.and_eq_true] at h2
        have hcx : c = x := eq_of_beq h2.1
        exact hxl (hcx ▸ hc)
      | cons z q2 =>
        change List.isPrefixOf (c :: rest) (z :: (q2 ++ x :: s)) = true at h2
        rw [List.isPrefixOf, Bool.and_eq_true] at h2
        have hcz : c = z := eq_of_beq h2.1
        exact hq z (List.mem_cons_of_mem y (List.mem_cons_self z q2)) (hcz ▸ hc)

theorem zeroPadded_not_lower (w n : Nat) (b : Byte) (hb : b ∈ zeroPadded w n) :
    ¬ (0x61 ≤ b.val ∧ b.val ≤ 0x7A) := by
  unfold zeroPadded at hb
  rw [List.mem_map] at hb
  obtain ⟨i, _, rfl⟩ := hb
  show ¬ (0x61 ≤ (0x30 + n / 10 ^ (w - 1 - i) % 10) % 256
    ∧ (0x30 + n / 10 ^ (w - 1 - i) % 10) % 256 ≤ 0x7A)
  omega

set_option maxRecDepth 100000 in
/-- With the default template and an ASCII raw code, the formatted name is the
full code, ` - `, and the name text in which the first `{author}`, if any, has
been replaced by the author text. -/
theorem dumpItemName_default (unicodeUpper : List Byte → List Byte) (file : File) (e : Byte)
    (d : medium) (hascii : ∀ b ∈ readString file e offsetCode 4 d, b.val < 0x80) :
    dumpItemName defaultConfig unicodeUpper file e d
      = fullcode unicodeUpper file e d ++ ascii " - "
        ++ replaceFirst (readName file e d) (ascii "\x7bauthor\x7d") (readAuthor file e d) := by
  have hq : ∀ b ∈ fullcode unicodeUpper file e d ++ ascii " -",
      ¬ (0x61 ≤ b.val ∧ b.val ≤ 0x7A) := by
    intro b hb
    unfold fullcode at hb
    simp only [] at hb
    rw [fmtZeroPad_four ⟨readInt file e offsetItemNumber d + 1,
        Nat.lt_succ_of_le (Nat.succ_le_succ (readInt_le file e _ d))⟩,
      fmtZeroPad_three ⟨readInt file e offsetItemRevision d,
        Nat.lt_succ_of_le (readInt_le file e _ d)⟩] at hb
    simp only [List.mem_append] at hb
    rcases hb with (((((h | h) | h) | h) | h) | h) | h
    · revert b; decide
    · unfold readCode at h
      rw [ToUpper_ascii unicodeUpper _ hascii, List.mem_map] at h
      obtain ⟨c, _, rfl⟩ := h
      exact upperByte_not_lower c
    · revert b; decide
    · exact zeroPadded_not_lower _ _ b h
    · revert b; decide
    · exact zeroPadded_not_lower _ _ b h
    · revert b; decide
  have hsplit : ∀ t : List Byte,
      fullcode unicodeUpper file e d ++ ascii " - " ++ t
        = (fullcode unicodeUpper file e d ++ ascii " -") ++ (0x20 : Byte) :: t := by
    intro t
    have : ascii " - " = ascii " -" ++ [(0x20 : Byte)] := by decide
    rw [this]
    simp only [List.append_assoc, List.singleton_append]
  have h1 : replaceFirst defaultConfig.format (ascii "\x7bcode\x7d")
      (fullcode unicodeUpper file e d)
      = fullcode unicodeUpper file e d ++ ascii " - " ++ ascii "\x7bname\x7d" := by
    rw [List.append_assoc]
    rfl
  unfold dumpItemName
  simp only []
  rw [h1, hsplit,
    show ascii "\x7bbrand\x7d" = (0x7B : Byte) :: 0x62 :: ascii "rand\x7d" from by decide,
    replaceFirst_skip 0x62 0x20 _ _ _ (by decide) (by decide) (by decide) _ hq,
    show replaceFirst (ascii "\x7bname\x7d") ((0x7B : Byte) :: 0x62 :: ascii "rand\x7d")
      (readBrand file e d) = ascii "\x7bname\x7d" from rfl,
    show ascii "\x7bname\x7d" = (0x7B : Byte) :: 0x6E :: ascii "ame\x7d" from by decide,
    replaceFirst_skip 0x6E 0x20 _ _ _ (by decide) (by decide) (by decide) _ hq,
    show replaceFirst ((0x7B : Byte) :: 0x6E :: ascii "ame\x7d")
      ((0x7B : Byte) :: 0x6E :: ascii "ame\x7d") (readName file e d)
      = readName file e d ++ [] from rfl,
    List.append_nil,
    show ascii "\x7bauthor\x7d" = (0x7B : Byte) :: 0x61 :: ascii "uthor\x7d" from by decide,
    replaceFirst_skip 0x61 0x20 _ _ _ (by decide) (by decide) (by decide) _ hq, hsplit]

set_option maxRecDepth 100000 in
/-- C19, the code on a failing input. `tokenSave` is a save file with the magic,
the microgame catalog entry 1 and, at `0x120000`, a record with the name
`{author}`, the author `Bob` and the code `ab01`. Under the default flags
`main` calls `dumpItem` once, for that entry. Its full code is
`G-AB01-0001-000` and its name text is `{author}`, but the formatted name is
`G-AB01-0001-000 - Bob`, not the full code followed by ` - ` and the name: the
later replacement of `{author}` rewrites the name text that was just
substituted. The run creates `out/microgame/G-AB01-0001-000 - Bob.mio` and no
`out/microgame/G-AB01-0001-000 - {author}.mio`. -/
theorem formatted_name_rewrites_name (unicodeUpper : List Byte → List Byte) :
    mainDumpCalls tokenSave = [(0x01, mediumMicrogame)]
      ∧ fullcode unicodeUpper tokenSave 1 mediumMicrogame = ascii "G-AB01-0001-000"
      ∧ readName tokenSave 1 mediumMicrogame = ascii "\x7bauthor\x7d"
      ∧ readAuthor tokenSave 1 mediumMicrogame = ascii "Bob"
      ∧ dumpItemName defaultConfig unicodeUpper tokenSave 1 mediumMicrogame
          = ascii "G-AB01-0001-000 - Bob"
      ∧ dumpItemName defaultConfig unicodeUpper tokenSave 1 mediumMicrogame
          ≠ fullcode unicodeUpper tokenSave 1 mediumMicrogame ++ ascii " - "
              ++ readName tokenSave 1 mediumMicrogame
      ∧ main defaultConfig unicodeUpper (fun _ => true) tokenSave (fun _ => none)
            (ascii "out/microgame/G-AB01-0001-000 - Bob.mio")
          = some (dumpItemData tokenSave 1 mediumMicrogame)
      ∧ main defaultConfig unicodeUpper (fun _ => true) tokenSave (fun _ => none)
            (ascii "out/microgame/G-AB01-0001-000 - \x7bauthor\x7d.mio")
          = none := by
  have hf := tokenSave_fields unicodeUpper
  have hmain : main defaultConfig unicodeUpper (fun _ => true) tokenSave (fun _ => none)
      = fun path => if path = ascii "out/microgame/G-AB01-0001-000 - Bob.mio"
          then some (dumpItemData tokenSave 1 mediumMicrogame) else none := by
    unfold main
    rw [tokenSave_calls, List.foldl_cons, List.foldl_nil]
    unfold dumpItem
    simp only []
    rw [tokenSave_fileName]
    rfl
  refine ⟨tokenSave_calls, hf.2.2.2, hf.2.1, hf.2.2.1, tokenSave_name unicodeUpper, ?_, ?_, ?_⟩
  · rw [tokenSave_name, hf.2.2.2, hf.2.1]
    decide
  · rw [hmain]
    exact if_pos rfl
  · rw [hmain]
    exact if_neg (by decide)

/-! ## The built-in descriptors never wrap -/

/-- C20. For each of the three built-in descriptors and every byte value `e`,
`dataStart + 255*dataSize + 0xD4 + 24` and `dataStart + 255*dataSize + dataSize`
are below `2^32`, so no `uint32` operation of `getItemPos`, `readString` or
`readInt` wraps: `getItemPos` is the exact value of
`dataStart + (e-1 as a byte) * dataSize`, and every field address is that value
plus the field offset plus the index; for `e ≥ 1` these are
`dataStart + (e - 1) * dataSize` and
`dataStart + (e - 1) * dataSize + offset + index`. -/
theorem builtin_no_wrap (d : medium)
    (hd : d = mediumMicrogame ∨ d = mediumRecord ∨ d = mediumComic) (e : Byte) :
    d.dataStart + 255 * d.dataSize + 0xD4 + 24 < 2 ^ 32
      ∧ d.dataStart + 255 * d.dataSize + d.dataSize < 2 ^ 32
      ∧ getItemPos e d = d.dataStart + ((e.val + 255) % 256) * d.dataSize
      ∧ (∀ off i, off ≤ 0xD4 → i < 24 →
          ((getItemPos e d + off) % 2 ^ 32 + i % 2 ^ 32) % 2 ^ 32
            = d.dataStart + ((e.val + 255) % 256) * d.dataSize + off + i)
      ∧ (1 ≤ e.val →
          getItemPos e d = d.dataStart + (e.val - 1) * d.dataSize
            ∧ ∀ off i, off ≤ 0xD4 → i < 24 →
              ((getItemPos e d + off) % 2 ^ 32 + i % 2 ^ 32) % 2 ^ 32
                = d.dataStart + (e.val - 1) * d.dataSize + off + i) := by
  have he := e.isLt
  have hpos : getItemPos e d = d.dataStart + ((e.val + 255) % 256) * d.dataSize := by
    unfold getItemPos
    rcases hd with rfl | rfl | rfl
    · simp only [mediumMicrogame]; omega
    · simp only [mediumRecord]; omega
    · simp only [mediumComic]; omega
  have hbound : d.dataStart + 255 * d.dataSize + 0xD4 + 24 < 2 ^ 32
      ∧ d.dataStart + 255 * d.dataSize + d.dataSize < 2 ^ 32 := by
    rcases hd with rfl | rfl | rfl <;> decide
  have hle : ((e.val + 255) % 256) * d.dataSize ≤ 255 * d.dataSize :=
    Nat.mul_le_mul_right _ (by omega)
  have haddr : ∀ off i, off ≤ 0xD4 → i < 24 →
      ((getItemPos e d + off) % 2 ^ 32 + i % 2 ^ 32) % 2 ^ 32
        = d.dataStart + ((e.val + 255) % 256) * d.dataSize + off + i := by
    intro off i hoff hi
    rw [hpos]
    have := hbound.1
    omega
  have hsub : 1 ≤ e.val → (e.val + 255) % 256 = e.val - 1 := by
    intro h; omega
  refine ⟨hbound.1, hbound.2, hpos, haddr, fun h1 => ?_⟩
  rw [← hsub h1]
  exact ⟨hpos, haddr⟩

/-- The entry 255 of the comic descriptor, the highest record of the highest
data region: byte 23 of its author field is at `0xA20000 + 254 * 0x3800 + 0x48 + 23`. -/
theorem builtin_no_wrap_witness :
    ((getItemPos 255 mediumComic + offsetAuthor) % 2 ^ 32 + 23 % 2 ^ 32) % 2 ^ 32
      = 0xA20000 + 254 * 0x3800 + 0x48 + 23 :=
  ((builtin_no_wrap mediumComic (Or.inr (Or.inr rfl)) 255).2.2.2.2 (by decide)).2
    offsetAuthor 23 (by decide) (by decide)

/-! ## Running twice -/

theorem mkdirWalk_cwd_files :
    ∀ (comps : List (List Byte)) (disk : Disk) (cur : Location),
      (mkdirWalk disk cur comps).cwd = disk.cwd
        ∧ (mkdirWalk disk cur comps).files = disk.files := by
  intro comps
  induction comps with
  | nil => intro disk cur; exact ⟨rfl, rfl⟩
  | cons comp rest ih =>
    intro disk cur
    rw [mkdirWalk]
    split
    · exact ih disk cur
    · split
      · exact ih disk _
      · split
        · exact ih disk _
        · split
          · exact ⟨rfl, rfl⟩
          · exact ih _ _

theorem dumpItemMkdir_cwd_files (dirPath : List Byte) (disk : Disk) :
    (dumpItemMkdir dirPath disk).cwd = disk.cwd
      ∧ (dumpItemMkdir dirPath disk).files = disk.files := by
  unfold dumpItemMkdir
  split
  · exact mkdirWalk_cwd_files _ disk _
  · exact ⟨rfl, rfl⟩

/-- A file that `pathLookup` finds or could create lies where the names of the
path lead, whatever exists. -/
theorem pathLookup_loc (disk : Disk) :
    ∀ (comps : List (List Byte)) (cur loc : Location),
      (pathLookup disk cur comps = Lookup.file loc
        ∨ pathLookup disk cur comps = Lookup.missing loc) →
      loc = walkPure cur comps := by
  intro comps
  induction comps with
  | nil =>
    intro cur loc h
    rw [pathLookup] at h
    rcases h with h | h <;> exact absurd h (by simp)
  | cons comp rest ih =>
    intro cur loc h
    rw [pathLookup] at h
    rw [walkPure]
    by_cases h1 : comp = [] ∨ comp = ascii "."
    · rw [if_pos h1] at h ⊢
      exact ih cur loc h
    · rw [if_neg h1] at h ⊢
      by_cases h2 : comp = ascii ".."
      · rw [if_pos h2] at h ⊢
        exact ih _ loc h
      · rw [if_neg h2] at h ⊢
        by_cases h3 : isDir disk (cur ++ [comp]) = true
        · rw [if_pos h3] at h
          exact ih _ loc h
        · rw [if_neg h3] at h
          by_cases h5 : rest = []
          · subst h5
            rw [walkPure]
            by_cases h4 : isFile disk (cur ++ [comp]) = true
            · rw [if_pos h4, if_pos rfl] at h
              rcases h with h | h
              · exact (Lookup.file.inj h).symm
              · exact absurd h (by simp)
            · rw [if_neg h4, if_pos rfl] at h
              rcases h with h | h
              · exact absurd h (by simp)
              · exact (Lookup.missing.inj h).symm
          · by_cases h4 : isFile disk (cur ++ [comp]) = true
            · rw [if_pos h4, if_neg h5] at h
              rcases h with h | h <;> exact absurd h (by simp)
            · rw [if_neg h4, if_neg h5] at h
              rcases h with h | h <;> exact absurd h (by simp)

theorem osCreate_loc (disk : Disk) (path : List Byte) (loc : Location)
    (h : osCreate disk path = some loc) :
    loc = walkPure (if path.head? = some 0x2F then [] else disk.cwd) (splitPath path) := by
  unfold osCreate at h
  split at h
  · exact absurd h (by simp)
  · have hl := pathLookup_loc disk (splitPath path) (pathStart disk path)
    unfold pathStart at hl h
    split at h
    · rename_i l heq
      rw [Option.some.inj h] at heq
      exact hl loc (Or.inl heq)
    · rename_i l heq
      rw [Option.some.inj h] at heq
      exact hl loc (Or.inr heq)
    · exact absurd h (by simp)

/-- With overwrite on, one call lays at most one write over the files: the blob,
at the place its file name leads to, when the file was created. -/
theorem dumpItemOS_overwrite (dirPath fileName data : List Byte) (disk : Disk) :
    (dumpItemOS true dirPath fileName data disk).cwd = disk.cwd
      ∧ (dumpItemOS true dirPath fileName data disk).files
          = fun l =>
              (if dumpItemCreated true dirPath fileName disk = true
                  ∧ l = walkPure (if fileName.head? = some 0x2F then [] else disk.cwd)
                      (splitPath fileName)
                then some data else none).or (disk.files l) := by
  have hm := dumpItemMkdir_cwd_files dirPath disk
  unfold dumpItemOS dumpItemCreated
  simp only []
  rw [if_neg (fun hc => absurd hc.2 (by decide)), if_neg (fun hc => absurd hc.2 (by decide))]
  cases hcr : osCreate (dumpItemMkdir dirPath disk) fileName with
  | none =>
    refine ⟨hm.1, ?_⟩
    rw [hm.2]
    funext l
    simp
  | some loc =>
    have hloc := osCreate_loc _ _ _ hcr
    rw [hm.1] at hloc
    refine ⟨hm.1, ?_⟩
    show (fun l => if l = loc then some data else (dumpItemMkdir dirPath disk).files l) = _
    rw [hm.2, ← hloc]
    funext l
    by_cases hl : l = loc
    · simp [hl]
    · simp [hl]

/-- With overwrite on, a sequence of calls lays a table of last writes over the
files, and the table depends only on the working directory and on which calls
created their file. -/
theorem dumpCallsDisk_overwrite (cfg : Config) (unicodeUpper : List Byte → List Byte)
    (file : File) (hov : cfg.overwrite = true) (cwd : Location) :
    ∀ calls : List (Byte × medium),
      ∃ table : List Bool → Location → Option (List Byte),
        ∀ disk : Disk, disk.cwd = cwd →
          (dumpCallsDisk cfg unicodeUpper file calls disk).files
            = fun l =>
                (table (dumpCallsCreated cfg unicodeUpper file calls disk) l).or
                  (disk.files l) := by
  intro calls
  induction calls with
  | nil =>
    refine ⟨fun _ _ => none, fun disk _ => ?_⟩
    rw [dumpCallsDisk]
    funext l
    simp
  | cons c cs ih =>
    obtain ⟨table, htable⟩ := ih
    refine ⟨fun bs l =>
      (table bs.tail l).or
        (if bs.head? = some true
            ∧ l = walkPure
                (if (dumpItemFileName cfg unicodeUpper file c.1 c.2).head? = some 0x2F
                  then [] else cwd)
                (splitPath (dumpItemFileName cfg unicodeUpper file c.1 c.2))
          then some (dumpItemData file c.1 c.2) else none), fun disk hcwd => ?_⟩
    have hstep := dumpItemOS_overwrite (dumpItemDirPath cfg c.2)
      (dumpItemFileName cfg unicodeUpper file c.1 c.2) (dumpItemData file c.1 c.2) disk
    rw [dumpCallsDisk, dumpCallsCreated]
    have hd : dumpItemDisk cfg unicodeUpper file c.1 c.2 disk
        = dumpItemOS true (dumpItemDirPath cfg c.2)
            (dumpItemFileName cfg unicodeUpper file c.1 c.2) (dumpItemData file c.1 c.2) disk := by
      unfold dumpItemDisk
      rw [hov]
    rw [htable _ (by rw [hd, hstep.1, hcwd]), hd, hstep.2, hov, hcwd]
    funext l
    simp only [List.tail_cons, List.head?_cons, Option.some.injEq]
    exact (Option.or_assoc).symm

theorem dumpCallsDisk_cwd (cfg : Config) (unicodeUpper : List Byte → List Byte)
    (file : File) (hov : cfg.overwrite = true) :
    ∀ (calls : List (Byte × medium)) (disk : Disk),
      (dumpCallsDisk cfg unicodeUpper file calls disk).cwd = disk.cwd := by
  intro calls
  induction calls with
  | nil => intro disk; rfl
  | cons c cs ih =>
    intro disk
    rw [dumpCallsDisk, ih]
    unfold dumpItemDisk
    rw [hov]
    exact (dumpItemOS_overwrite _ _ _ disk).1

theorem isDir_cons (disk : Disk) (nxt l : Location) :
    isDir { disk with dirs := nxt :: disk.dirs } l = (isDir disk l || (l == nxt)) := by
  unfold isDir
  simp only [List.contains_cons]
  cases l.isEmpty <;> cases (l == nxt) <;> cases disk.dirs.contains l <;> rfl

/-- The walk of `os.MkdirAll` keeps every directory, and never turns the place
of a regular file into a directory. -/
theorem mkdirWalk_isDir :
    ∀ (comps : List (List Byte)) (disk : Disk) (cur : Location),
      (∀ l, isDir disk l = true → isDir (mkdirWalk disk cur comps) l = true)
        ∧ (∀ l, isFile disk l = true → isDir disk l = false →
            isDir (mkdirWalk disk cur comps) l = false) := by
  intro comps
  induction comps with
  | nil => intro disk cur; exact ⟨fun _ h => h, fun _ _ h => h⟩
  | cons comp rest ih =>
    intro disk cur
    rw [mkdirWalk]
    split
    · exact ih disk cur
    · split
      · exact ih disk _
      · split
        · exact ih disk _
        · split
          · exact ⟨fun _ h => h, fun _ _ h => h⟩
          · rename_i hnd hnf
            have ih2 := ih { disk with dirs := (cur ++ [comp]) :: disk.dirs } (cur ++ [comp])
            constructor
            · intro l hl
              apply ih2.1
              rw [isDir_cons, hl]
              rfl
            · intro l hf hd
              apply ih2.2 l hf
              rw [isDir_cons, hd]
              have hne : l ≠ cur ++ [comp] := by
                intro heq
                rw [heq] at hf
                exact hnf hf
              simpa using hne

theorem dumpItemMkdir_isDir (dirPath : List Byte) (disk : Disk) :
    (∀ l, isDir disk l = true → isDir (dumpItemMkdir dirPath disk) l = true)
      ∧ (∀ l, isFile disk l = true → isDir disk l = false →
          isDir (dumpItemMkdir dirPath disk) l = false) := by
  unfold dumpItemMkdir
  split
  · exact mkdirWalk_isDir _ disk _
  · exact ⟨fun _ h => h, fun _ _ h => h⟩

theorem dumpItemMkdir_isFile (dirPath : List Byte) (disk : Disk) (l : Location) :
    isFile (dumpItemMkdir dirPath disk) l = isFile disk l := by
  unfold isFile
  rw [(dumpItemMkdir_cwd_files dirPath disk).2]

/-- A place that `pathLookup` reports as a file or as missing is not a directory. -/
theorem pathLookup_not_dir (disk : Disk) :
    ∀ (comps : List (List Byte)) (cur loc : Location),
      (pathLookup disk cur comps = Lookup.file loc
        ∨ pathLookup disk cur comps = Lookup.missing loc) →
      isDir disk loc = false := by
  intro comps
  induction comps with
  | nil =>
    intro cur loc h
    rw [pathLookup] at h
    rcases h with h | h <;> exact absurd h (by simp)
  | cons comp rest ih =>
    intro cur loc h
    rw [pathLookup] at h
    by_cases h1 : comp = [] ∨ comp = ascii "."
    · rw [if_pos h1] at h
      exact ih cur loc h
    · rw [if_neg h1] at h
      by_cases h2 : comp = ascii ".."
      · rw [if_pos h2] at h
        exact ih _ loc h
      · rw [if_neg h2] at h
        by_cases h3 : isDir disk (cur ++ [comp]) = true
        · rw [if_pos h3] at h
          exact ih _ loc h
        · rw [if_neg h3] at h
          have h3' : isDir disk (cur ++ [comp]) = false := by
            cases hd : isDir disk (cur ++ [comp]) with
            | false => rfl
            | true => exact absurd hd h3
          by_cases h5 : rest = []
          · by_cases h4 : isFile disk (cur ++ [comp]) = true
            · rw [if_pos h4, if_pos h5] at h
              rcases h with h | h
              · rw [← Lookup.file.inj h]; exact h3'
              · exact absurd h (by simp)
            · rw [if_neg h4, if_pos h5] at h
              rcases h with h | h
              · exact absurd h (by simp)
              · rw [← Lookup.missing.inj h]; exact h3'
          · by_cases h4 : isFile disk (cur ++ [comp]) = true
            · rw [if_pos h4, if_neg h5] at h
              rcases h with h | h <;> exact absurd h (by simp)
            · rw [if_neg h4, if_neg h5] at h
              rcases h with h | h <;> exact absurd h (by simp)

/-- A resolution that ends on a file or a missing name still does so in a tree
with more directories, as long as its end is not a directory there. -/
theorem pathLookup_mono (s t : Disk) (hsub : ∀ l, isDir s l = true → isDir t l = true) :
    ∀ (comps : List (List Byte)) (cur loc : Location),
      (pathLookup s cur comps = Lookup.file loc
        ∨ pathLookup s cur comps = Lookup.missing loc) →
      isDir t loc = false →
      (pathLookup t cur comps = Lookup.file loc
        ∨ pathLookup t cur comps = Lookup.missing loc) := by
  intro comps
  induction comps with
  | nil =>
    intro cur loc h
    rw [pathLookup] at h
    rcases h with h | h <;> exact absurd h (by simp)
  | cons comp rest ih =>
    intro cur loc h ht
    rw [pathLookup] at h ⊢
    by_cases h1 : comp = [] ∨ comp = ascii "."
    · rw [if_pos h1] at h ⊢
      exact ih cur loc h ht
    · rw [if_neg h1] at h ⊢
      by_cases h2 : comp = ascii ".."
      · rw [if_pos h2] at h ⊢
        exact ih _ loc h ht
      · rw [if_neg h2] at h ⊢
        by_cases h3 : isDir s (cur ++ [comp]) = true
        · rw [if_pos h3] at h
          rw [if_pos (hsub _ h3)]
          exact ih _ loc h ht
        · rw [if_neg h3] at h
          have hloc : rest = [] ∧ loc = cur ++ [comp] := by
            by_cases h5 : rest = []
            · refine ⟨h5, ?_⟩
              by_cases h4 : isFile s (cur ++ [comp]) = true
              · rw [if_pos h4, if_pos h5] at h
                rcases h with h | h
                · exact (Lookup.file.inj h).symm
                · exact absurd h (by simp)
              · rw [if_neg h4, if_pos h5] at h
                rcases h with h | h
                · exact absurd h (by simp)
                · exact (Lookup.missing.inj h).symm
            · by_cases h4 : isFile s (cur ++ [comp]) = true
              · rw [if_pos h4, if_neg h5] at h
                rcases h with h | h <;> exact absurd h (by simp)
              · rw [if_neg h4, if_neg h5] at h
                rcases h with h | h <;> exact absurd h (by simp)
          rw [← hloc.2, if_neg (by rw [ht]; decide), if_pos hloc.1, if_pos hloc.1]
          by_cases h4 : isFile t loc = true
          · rw [if_pos h4]; exact Or.inl rfl
          · rw [if_neg h4]; exact Or.inr rfl

theorem osCreate_cases (disk : Disk) (path : List Byte) (loc : Location) :
    osCreate disk path = some loc
      ↔ (path ≠ [] ∧ (pathLookup disk (pathStart disk path) (splitPath path) = Lookup.file loc
          ∨ pathLookup disk (pathStart disk path) (splitPath path) = Lookup.missing loc)) := by
  unfold osCreate
  by_cases hp : path = []
  · rw [if_pos hp]
    exact ⟨fun h => absurd h (by simp), fun h => absurd hp h.1⟩
  · rw [if_neg hp]
    cases hl : pathLookup disk (pathStart disk path) (splitPath path) with
    | dir l => simp
    | file l => simp [hp]
    | missing l => simp [hp]
    | notDir => simp
    | noEnt => simp

/-- One call with overwrite on: the directories are those after the `MkdirAll`
step, every file stays a file, and a created file is a file that is not a
directory. -/
theorem dumpItemOS_facts (dirPath fileName data : List Byte) (disk : Disk) :
    (∀ l, isDir (dumpItemOS true dirPath fileName data disk) l
        = isDir (dumpItemMkdir dirPath disk) l)
      ∧ (∀ l, isFile disk l = true →
          isFile (dumpItemOS true dirPath fileName data disk) l = true)
      ∧ (∀ loc, osCreate (dumpItemMkdir dirPath disk) fileName = some loc →
          isFile (dumpItemOS true dirPath fileName data disk) loc = true
            ∧ isDir (dumpItemOS true dirPath fileName data disk) loc = false) := by
  have hfile := dumpItemMkdir_isFile dirPath disk
  unfold dumpItemOS
  simp only []
  rw [if_neg (fun hc => absurd hc.2 (by decide))]
  cases hcr : osCreate (dumpItemMkdir dirPath disk) fileName with
  | none =>
    refine ⟨fun _ => rfl, fun l hl => ?_, fun loc h => absurd h (by simp)⟩
    show isFile (dumpItemMkdir dirPath disk) l = true
    rw [hfile]; exact hl
  | some loc0 =>
    have hnd : isDir (dumpItemMkdir dirPath disk) loc0 = false :=
      pathLookup_not_dir _ _ _ _ ((osCreate_cases _ _ _).mp hcr).2
    refine ⟨fun _ => rfl, fun l hl => ?_, fun loc h => ?_⟩
    · show ((if l = loc0 then some data else (dumpItemMkdir dirPath disk).files l).isSome) = true
      by_cases hl0 : l = loc0
      · rw [if_pos hl0]; rfl
      · rw [if_neg hl0]
        have := hfile l
        unfold isFile at this hl
        rw [this]; exact hl
    · have hloc : loc0 = loc := Option.some.inj h
      subst hloc
      refine ⟨?_, hnd⟩
      show ((if loc0 = loc0 then some data else (dumpItemMkdir dirPath disk).files loc0).isSome)
        = true
      rw [if_pos rfl]; rfl

theorem dumpItemOS_isDir_mono (dirPath fileName data : List Byte) (disk : Disk) :
    (∀ l, isDir disk l = true → isDir (dumpItemOS true dirPath fileName data disk) l = true)
      ∧ (∀ l, isFile disk l = true → isDir disk l = false →
          isFile (dumpItemOS true dirPath fileName data disk) l = true
            ∧ isDir (dumpItemOS true dirPath fileName data disk) l = false) := by
  have hf := dumpItemOS_facts dirPath fileName data disk
  have hm := dumpItemMkdir_isDir dirPath disk
  constructor
  · intro l hl
    rw [hf.1]; exact hm.1 l hl
  · intro l hl hd
    refine ⟨hf.2.1 l hl, ?_⟩
    rw [hf.1]; exact hm.2 l hl hd

theorem dumpCallsDisk_isDir_mono (cfg : Config) (unicodeUpper : List Byte → List Byte)
    (file : File) (hov : cfg.overwrite = true) :
    ∀ (calls : List (Byte × medium)) (disk : Disk),
      (∀ l, isDir disk l = true → isDir (dumpCallsDisk cfg unicodeUpper file calls disk) l = true)
        ∧ (∀ l, isFile disk l = true → isDir disk l = false →
            isFile (dumpCallsDisk cfg unicodeUpper file calls disk) l = true
              ∧ isDir (dumpCallsDisk cfg unicodeUpper file calls disk) l = false) := by
  intro calls
  induction calls with
  | nil => intro disk; exact ⟨fun _ h => h, fun _ h1 h2 => ⟨h1, h2⟩⟩
  | cons c cs ih =>
    intro disk
    rw [dumpCallsDisk]
    have hd : dumpItemDisk cfg unicodeUpper file c.1 c.2 disk
        = dumpItemOS true (dumpItemDirPath cfg c.2)
            (dumpItemFileName cfg unicodeUpper file c.1 c.2) (dumpItemData file c.1 c.2) disk := by
      unfold dumpItemDisk
      rw [hov]
    rw [hd]
    have hstep := dumpItemOS_isDir_mono (dumpItemDirPath cfg c.2)
      (dumpItemFileName cfg unicodeUpper file c.1 c.2) (dumpItemData file c.1 c.2) disk
    have ih2 := ih (dumpItemOS true (dumpItemDirPath cfg c.2)
      (dumpItemFileName cfg unicodeUpper file c.1 c.2) (dumpItemData file c.1 c.2) disk)
    constructor
    · intro l hl
      exact ih2.1 l (hstep.1 l hl)
    · intro l hl hdir
      exact ih2.2 l (hstep.2 l hl hdir).1 (hstep.2 l hl hdir).2

/-- When every call of a run from `s` created its file, the same calls from a
tree `t` that has the directories and the files of the end of that run all
create their file too. -/
theorem dumpCallsCreated_again (cfg : Config) (unicodeUpper : List Byte → List Byte)
    (file : File) (hov : cfg.overwrite = true) :
    ∀ (calls : List (Byte × medium)) (s t : Disk), s.cwd = t.cwd →
      (∀ l, isDir (dumpCallsDisk cfg unicodeUpper file calls s) l = true → isDir t l = true) →
      (∀ l, isFile (dumpCallsDisk cfg unicodeUpper file calls s) l = true →
        isDir (dumpCallsDisk cfg unicodeUpper file calls s) l = false →
        isFile t l = true ∧ isDir t l = false) →
      (∀ b ∈ dumpCallsCreated cfg unicodeUpper file calls s, b = true) →
      dumpCallsCreated cfg unicodeUpper file calls t
        = dumpCallsCreated cfg unicodeUpper file calls s := by
  intro calls
  induction calls with
  | nil => intro s t _ _ _ _; rfl
  | cons c cs ih =>
    intro s t hcwd hdirs hfiles hall
    rw [dumpCallsCreated] at hall ⊢
    rw [dumpCallsCreated]
    rw [dumpCallsDisk] at hdirs hfiles
    have hd : ∀ disk, dumpItemDisk cfg unicodeUpper file c.1 c.2 disk
        = dumpItemOS true (dumpItemDirPath cfg c.2)
            (dumpItemFileName cfg unicodeUpper file c.1 c.2) (dumpItemData file c.1 c.2) disk := by
      intro disk
      unfold dumpItemDisk
      rw [hov]
    rw [hov] at hall ⊢
    rw [hd] at hall hdirs hfiles ⊢
    rw [hd]
    have hb : dumpItemCreated true (dumpItemDirPath cfg c.2)
        (dumpItemFileName cfg unicodeUpper file c.1 c.2) s = true :=
      hall _ (List.mem_cons_self _ _)
    have hrest : ∀ b ∈ dumpCallsCreated cfg unicodeUpper file cs
        (dumpItemOS true (dumpItemDirPath cfg c.2)
          (dumpItemFileName cfg unicodeUpper file c.1 c.2) (dumpItemData file c.1 c.2) s),
        b = true := fun b hb' => hall b (List.mem_cons_of_mem _ hb')
    -- the first run created the file at `loc`
    unfold dumpItemCreated at hb
    simp only [] at hb
    rw [if_neg (fun hc => absurd hc.2 (by decide))] at hb
    obtain ⟨loc, hloc⟩ := Option.isSome_iff_exists.mp hb
    have hs := dumpItemOS_facts (dumpItemDirPath cfg c.2)
      (dumpItemFileName cfg unicodeUpper file c.1 c.2) (dumpItemData file c.1 c.2) s
    have hsrun := dumpCallsDisk_isDir_mono cfg unicodeUpper file hov cs
      (dumpItemOS true (dumpItemDirPath cfg c.2)
        (dumpItemFileName cfg unicodeUpper file c.1 c.2) (dumpItemData file c.1 c.2) s)
    have hloc_end := hsrun.2 loc (hs.2.2 loc hloc).1 (hs.2.2 loc hloc).2
    have hloc_t := hfiles loc hloc_end.1 hloc_end.2
    have htm := dumpItemMkdir_isDir (dumpItemDirPath cfg c.2) t
    have hloc_t1 : isDir (dumpItemMkdir (dumpItemDirPath cfg c.2) t) loc = false :=
      htm.2 loc hloc_t.1 hloc_t.2
    have hsub : ∀ l, isDir (dumpItemMkdir (dumpItemDirPath cfg c.2) s) l = true →
        isDir (dumpItemMkdir (dumpItemDirPath cfg c.2) t) l = true := by
      intro l hl
      apply htm.1
      apply hdirs
      apply hsrun.1
      rw [hs.1]
      exact hl
    have hcwd1 : (dumpItemMkdir (dumpItemDirPath cfg c.2) s).cwd
        = (dumpItemMkdir (dumpItemDirPath cfg c.2) t).cwd := by
      rw [(dumpItemMkdir_cwd_files _ s).1, (dumpItemMkdir_cwd_files _ t).1, hcwd]
    have hstart : pathStart (dumpItemMkdir (dumpItemDirPath cfg c.2) s)
        (dumpItemFileName cfg unicodeUpper file c.1 c.2)
        = pathStart (dumpItemMkdir (dumpItemDirPath cfg c.2) t)
            (dumpItemFileName cfg unicodeUpper file c.1 c.2) := by
      unfold pathStart
      rw [hcwd1]
    have hcreate_t : osCreate (dumpItemMkdir (dumpItemDirPath cfg c.2) t)
        (dumpItemFileName cfg unicodeUpper file c.1 c.2) = some loc := by
      have h1 := (osCreate_cases _ _ _).mp hloc
      rw [osCreate_cases]
      refine ⟨h1.1, ?_⟩
      rw [← hstart]
      exact pathLookup_mono _ _ hsub _ _ _ h1.2 hloc_t1
    have hb_t : dumpItemCreated true (dumpItemDirPath cfg c.2)
        (dumpItemFileName cfg unicodeUpper file c.1 c.2) t = true := by
      unfold dumpItemCreated
      simp only []
      rw [if_neg (fun hc => absurd hc.2 (by decide)), hcreate_t]
      rfl
    have hb_s : dumpItemCreated true (dumpItemDirPath cfg c.2)
        (dumpItemFileName cfg unicodeUpper file c.1 c.2) s = true :=
      hall _ (List.mem_cons_self _ _)
    rw [hb_t, hb_s]
    congr 1
    have htstep := dumpItemOS_isDir_mono (dumpItemDirPath cfg c.2)
      (dumpItemFileName cfg unicodeUpper file c.1 c.2) (dumpItemData file c.1 c.2) t
    apply ih _ _ _ _ _ hrest
    · rw [(dumpItemOS_overwrite _ _ _ s).1, (dumpItemOS_overwrite _ _ _ t).1, hcwd]
    · intro l hl
      exact htstep.1 l (hdirs l hl)
    · intro l hl1 hl2
      exact htstep.2 l (hfiles l hl1 hl2).1 (hfiles l hl1 hl2).2

/-- C17, amended. With overwrite enabled, when `os.Create` succeeds in the second
run for exactly the `dumpItem` calls for which it succeeded in the first run,
the second run leaves every output file with the content it had after the
first run and adds none. This is the case, in particular, when every
`os.Create` of the first run succeeded. -/
theorem mainDisk_idempotent (cfg : Config) (unicodeUpper : List Byte → List Byte)
    (file : File) (disk : Disk) (hov : cfg.overwrite = true) :
    (mainCreated cfg unicodeUpper file (mainDisk cfg unicodeUpper file disk)
        = mainCreated cfg unicodeUpper file disk →
      (mainDisk cfg unicodeUpper file (mainDisk cfg unicodeUpper file disk)).files
        = (mainDisk cfg unicodeUpper file disk).files)
    ∧ ((∀ b ∈ mainCreated cfg unicodeUpper file disk, b = true) →
      mainCreated cfg unicodeUpper file (mainDisk cfg unicodeUpper file disk)
          = mainCreated cfg unicodeUpper file disk
        ∧ (mainDisk cfg unicodeUpper file (mainDisk cfg unicodeUpper file disk)).files
          = (mainDisk cfg unicodeUpper file disk).files) := by
  have key : mainCreated cfg unicodeUpper file (mainDisk cfg unicodeUpper file disk)
      = mainCreated cfg unicodeUpper file disk →
      (mainDisk cfg unicodeUpper file (mainDisk cfg unicodeUpper file disk)).files
        = (mainDisk cfg unicodeUpper file disk).files := by
    intro hsame
    obtain ⟨table, htable⟩ :=
      dumpCallsDisk_overwrite cfg unicodeUpper file hov disk.cwd (mainDumpCalls file)
    have hcwd : (mainDisk cfg unicodeUpper file disk).cwd = disk.cwd :=
      dumpCallsDisk_cwd cfg unicodeUpper file hov _ disk
    have h1 : (mainDisk cfg unicodeUpper file disk).files
        = fun l => (table (mainCreated cfg unicodeUpper file disk) l).or (disk.files l) :=
      htable disk rfl
    have h2 : (mainDisk cfg unicodeUpper file (mainDisk cfg unicodeUpper file disk)).files
        = fun l =>
            (table (mainCreated cfg unicodeUpper file (mainDisk cfg unicodeUpper file disk)) l).or
              ((mainDisk cfg unicodeUpper file disk).files l) :=
      htable (mainDisk cfg unicodeUpper file disk) hcwd
    rw [h2, hsame, h1]
    funext l
    show (table (mainCreated cfg unicodeUpper file disk) l).or
        ((table (mainCreated cfg unicodeUpper file disk) l).or (disk.files l))
      = (table (mainCreated cfg unicodeUpper file disk) l).or (disk.files l)
    cases table (mainCreated cfg unicodeUpper file disk) l <;> rfl
  refine ⟨key, fun hall => ?_⟩
  have hsame : mainCreated cfg unicodeUpper file (mainDisk cfg unicodeUpper file disk)
      = mainCreated cfg unicodeUpper file disk :=
    dumpCallsCreated_again cfg unicodeUpper file hov (mainDumpCalls file) disk
      (mainDisk cfg unicodeUpper file disk)
      (dumpCallsDisk_cwd cfg unicodeUpper file hov _ disk).symm
      (fun _ h => h) (fun _ h1 h2 => ⟨h1, h2⟩) hall
  exact ⟨hsame, key hsame⟩

/-- The save file `tokenSave` under the default flags, from an empty tree: the
one `dumpItem` call creates its file in both runs, and the second run leaves
the files as they were. -/
theorem mainDisk_idempotent_witness :
    mainCreated defaultConfig id tokenSave emptyDisk = [true]
      ∧ mainCreated defaultConfig id tokenSave (mainDisk defaultConfig id tokenSave emptyDisk)
          = mainCreated defaultConfig id tokenSave emptyDisk
      ∧ (mainDisk defaultConfig id tokenSave
            (mainDisk defaultConfig id tokenSave emptyDisk)).files
          = (mainDisk defaultConfig id tokenSave emptyDisk).files :=
  have h1 : mainCreated defaultConfig id tokenSave emptyDisk = [true] := by
    unfold mainCreated
    rw [tokenSave_calls, dumpCallsCreated, dumpCallsCreated, tokenSave_fileName]
    rfl
  ⟨h1, (mainDisk_idempotent defaultConfig id tokenSave emptyDisk rfl).2
    (by rw [h1]; decide)⟩

theorem byteAt_append_left (a b : List Byte) (pos : Nat) (h : pos < a.length) :
    byteAt (a ++ b) pos = byteAt a pos :=
  List.getD_append a b 0 pos h

/-- A list followed by zeros reads like the list itself. -/
theorem byteAt_append_zeros (a : List Byte) (n pos : Nat) :
    byteAt (a ++ List.replicate n 0) pos = byteAt a pos := by
  unfold byteAt
  by_cases hp : pos < a.length
  · exact List.getD_append a _ 0 pos hp
  · rw [List.getD_append_right _ _ _ _ (by omega), replicate_getD_zero,
      getD_zero_of_le _ _ (by omega)]

theorem ReadAt_append_left (a b : List Byte) (n k : Nat) (h : k + n ≤ a.length) :
    ReadAt (a ++ b) n k = ReadAt a n k := by
  unfold ReadAt
  apply List.map_congr_left
  intro i hi
  rw [List.mem_range] at hi
  exact byteAt_append_left a b _ (by omega)

/-- A catalog window whose first slot holds `b ≠ 0` and whose other even
positions are zero gives the shelf `[b]`. -/
theorem readShelf_single (file : File) (saveOffset : Nat) (m : medium) (b : Byte) (hb : b ≠ 0)
    (h0 : byteAt file (saveOffset + m.dataIndex) = b)
    (hrest : ∀ k, 1 ≤ k → k < 90 → byteAt file (saveOffset + m.dataIndex + 2 * k) = 0) :
    readShelf file saveOffset m = [b] := by
  rw [readShelf_eq, List.range_succ_eq_map, List.map_cons, List.map_map]
  have h0' : byteAt file (saveOffset + m.dataIndex + 2 * 0) = b := h0
  rw [h0']
  unfold nonZero
  rw [List.filter_cons, if_pos (by simpa using hb)]
  have hz := nonZero_map_zero
    ((fun k => byteAt file (saveOffset + m.dataIndex + 2 * k)) ∘ Nat.succ)
    (List.range 89) (by
      intro k hk
      rw [List.mem_range] at hk
      exact hrest (k + 1) (by omega) (by omega))
  unfold nonZero at hz
  rw [hz]

theorem travCatalog_length : travCatalog.length = 0x797 := by
  unfold travCatalog
  rw [List.length_append, List.length_append, List.length_replicate, tokenCatalog_length]
  rfl

theorem travSave_lengths :
    (travCatalog ++ List.replicate (0x120000 - 0x797) 0).length = 0x120000
      ∧ (travCatalog ++ List.replicate (0x120000 - 0x797) 0 ++ travMicrogame
          ++ List.replicate (0x920000 - 0x120000 - 0xD5) 0).length = 0x920000
      ∧ travMicrogame.length = 0xD5 := by
  have hm : travMicrogame.length = 0xD5 := by
    unfold travMicrogame
    rw [List.length_append, List.length_append, List.length_replicate, List.length_replicate]
    rfl
  refine ⟨?_, ?_, hm⟩
  · rw [List.length_append, List.length_replicate, travCatalog_length]
  · rw [List.length_append, List.length_append, List.length_append, List.length_replicate,
      List.length_replicate, travCatalog_length, hm]

/-- Before the first record, `travSave` is `travCatalog` followed by zeros. -/
theorem travSave_byteAt (pos : Nat) (h : pos < 0x120000) :
    byteAt travSave pos = byteAt travCatalog pos := by
  unfold travSave
  rw [List.append_assoc, List.append_assoc,
    byteAt_append_left _ _ _ (by rw [travSave_lengths.1]; exact h), byteAt_append_zeros]

set_option maxRecDepth 100000 in
/-- The bytes of `travCatalog`: those of `tokenCatalog`, then zeros up to the 1
at `0x796`, zero after it. -/
theorem travCatalog_byteAt (pos : Nat) :
    byteAt travCatalog pos
      = if pos < 0x796 then byteAt tokenCatalog pos else if pos = 0x796 then 1 else 0 := by
  have hlen : (tokenCatalog ++ List.replicate (0x796 - 0x6E1) 0).length = 0x796 := by
    rw [List.length_append, List.length_replicate, tokenCatalog_length]
  unfold travCatalog
  by_cases h1 : pos < 0x796
  · rw [if_pos h1, byteAt_append_left _ _ _ (by rw [hlen]; exact h1), byteAt_append_zeros]
  · rw [if_neg h1]
    unfold byteAt
    rw [List.getD_append_right _ _ _ _ (by rw [hlen]; omega), hlen]
    by_cases h2 : pos = 0x796
    · rw [if_pos h2, h2]
      rfl
    · rw [if_neg h2]
      exact getD_zero_of_le _ _ (by simp; omega)

theorem travSave_zero (pos : Nat) (h1 : 0x6E1 ≤ pos) (h2 : pos ≠ 0x796) (h3 : pos < 0x120000) :
    byteAt travSave pos = 0 := by
  rw [travSave_byteAt pos h3, travCatalog_byteAt]
  by_cases hp : pos < 0x796
  · rw [if_pos hp]
    exact tokenCatalog_byteAt_zero pos h1
  · rw [if_neg hp, if_neg h2]

set_option maxRecDepth 100000 in
theorem travSave_calls :
    mainDumpCalls travSave = [(0x01, mediumMicrogame), (0x01, mediumRecord)] := by
  have hmagic : compareBytes checkIsSav (ReadAt travSave checkIsSav.length 0) = true := by
    rw [magic_check_iff]
    unfold travSave travCatalog tokenCatalog
    simp only [List.append_assoc]
    exact List.take_left' rfl
  have hlow : ∀ pos, pos < 0x18 → byteAt travSave pos = byteAt tokenCatalog pos := by
    intro pos hp
    rw [travSave_byteAt pos (by omega), travCatalog_byteAt, if_pos (by omega)]
  have hver0 : verSearch travSave offsetV1 = 0 := by
    rw [verSearch_eq, hlow _ (by decide), hlow _ (by decide), hlow _ (by decide),
      hlow _ (by decide)]
    decide
  have hver1 : verSearch travSave offsetV2 = 0 := by
    rw [verSearch_eq, travSave_zero _ (by decide) (by decide) (by decide),
      travSave_zero _ (by decide) (by decide) (by decide),
      travSave_zero _ (by decide) (by decide) (by decide),
      travSave_zero _ (by decide) (by decide) (by decide)]
    rfl
  have hbase : mainSaveOffset travSave = 0 := by
    unfold mainSaveOffset
    simp only []
    rw [hver0, hver1]
    rfl
  have hmicro : readShelf travSave 0 mediumMicrogame = [0x01] := by
    have hidx : mediumMicrogame.dataIndex = 0x6E0 := rfl
    apply readShelf_single _ _ _ _ (by decide)
    · rw [travSave_byteAt _ (by decide), travCatalog_byteAt, if_pos (by decide)]
      decide
    · intro k hk1 hk2
      exact travSave_zero _ (by omega) (by omega) (by omega)
  have hrec : readShelf travSave 0 mediumRecord = [0x01] := by
    have hidx : mediumRecord.dataIndex = 0x796 := rfl
    apply readShelf_single _ _ _ _ (by decide)
    · rw [travSave_byteAt _ (by decide), travCatalog_byteAt, if_neg (by decide),
        if_pos (by decide)]
    · intro k hk1 hk2
      exact travSave_zero _ (by omega) (by omega) (by omega)
  have hcomic : readShelf travSave 0 mediumComic = [] := by
    have hidx : mediumComic.dataIndex = 0x84C := rfl
    rw [readShelf_eq]
    apply nonZero_map_zero
    intro k hk
    rw [List.mem_range] at hk
    exact travSave_zero _ (by omega) (by omega) (by omega)
  unfold mainDumpCalls
  simp only []
  rw [hmagic, hbase, hmicro, hrec, hcomic]
  rfl


theorem travSave_microgame_pos :
    getItemPos 1 mediumMicrogame
      = (travCatalog ++ List.replicate (0x120000 - 0x797) 0).length := by
  rw [travSave_lengths.1]; decide

theorem travSave_record_pos :
    getItemPos 1 mediumRecord
      = (travCatalog ++ List.replicate (0x120000 - 0x797) 0 ++ travMicrogame
          ++ List.replicate (0x920000 - 0x120000 - 0xD5) 0).length := by
  rw [travSave_lengths.2.1]; decide

/-- A field of the microgame of `travSave` is decoded from `travMicrogame`. -/
theorem travSave_readString_microgame (dataOffset size : Nat) (h : dataOffset + size ≤ 0xD5) :
    readString travSave 1 dataOffset size mediumMicrogame
      = textDecoding (ReadAt travMicrogame size dataOffset) := by
  rw [readString_eq,
    wrapRead_eq_ReadAt _ _ _ (by rw [travSave_microgame_pos, travSave_lengths.1]; omega),
    travSave_microgame_pos, travSave, List.append_assoc, List.append_assoc, ReadAt_append_right,
    ReadAt_append_left _ _ _ _ (by rw [travSave_lengths.2.2]; exact h)]

/-- A field of the `record` item of `travSave` is decoded from `travRecord`. -/
theorem travSave_readString_record (dataOffset size : Nat) (h : dataOffset + size ≤ 0xD5) :
    readString travSave 1 dataOffset size mediumRecord
      = textDecoding (ReadAt travRecord size dataOffset) := by
  rw [readString_eq,
    wrapRead_eq_ReadAt _ _ _ (by rw [travSave_record_pos, travSave_lengths.2.1]; omega),
    travSave_record_pos, travSave, ReadAt_append_right]

set_option maxRecDepth 100000 in
theorem travSave_names :
    readName travSave 1 mediumMicrogame = ascii "../record/X"
      ∧ readName travSave 1 mediumRecord = ascii "Y" := by
  constructor
  · unfold readName
    rw [travSave_readString_microgame _ _ (by decide)]
    decide
  · unfold readName
    rw [travSave_readString_record _ _ (by decide)]
    decide

set_option maxRecDepth 100000 in
theorem travSave_fileNames (unicodeUpper : List Byte → List Byte) :
    dumpItemFileName travConfig unicodeUpper travSave 1 mediumMicrogame
        = ascii "out/microgame/../record/X.mio"
      ∧ dumpItemFileName travConfig unicodeUpper travSave 1 mediumRecord
        = ascii "out/record/Y.mio" := by
  constructor
  · unfold dumpItemFileName dumpItemName
    simp only []
    rw [travSave_names.1]
    rfl
  · unfold dumpItemFileName dumpItemName
    simp only []
    rw [travSave_names.2]
    rfl

set_option maxRecDepth 100000 in
/-- C17, counterexample. `travSave` holds a microgame named `../record/X` and an
item of the category `record`; the flags are the default ones except for the
template `{name}`, so overwrite is on. In the first run from an empty tree the
microgame comes first: `os.Create("out/microgame/../record/X.mio")` fails,
because `out/record` does not exist yet, and the later `record` item makes that
directory. The second run creates `out/record/X.mio`, a file that was not there
after the first run. -/
theorem idempotence_counterexample :
    travConfig.overwrite = true
      ∧ mainDumpCalls travSave = [(0x01, mediumMicrogame), (0x01, mediumRecord)]
      ∧ dumpItemFileName travConfig id travSave 1 mediumMicrogame
          = ascii "out/microgame/../record/X.mio"
      ∧ mainCreated travConfig id travSave emptyDisk = [false, true]
      ∧ mainCreated travConfig id travSave (mainDisk travConfig id travSave emptyDisk)
          = [true, true]
      ∧ (mainDisk travConfig id travSave emptyDisk).files
          [ascii "out", ascii "record", ascii "X.mio"] = none
      ∧ (mainDisk travConfig id travSave (mainDisk travConfig id travSave emptyDisk)).files
          [ascii "out", ascii "record", ascii "X.mio"]
          = some (dumpItemData travSave 1 mediumMicrogame)
      ∧ ¬ (∀ (cfg : Config) (unicodeUpper : List Byte → List Byte) (file : File) (disk : Disk),
            cfg.overwrite = true →
            (mainDisk cfg unicodeUpper file (mainDisk cfg unicodeUpper file disk)).files
              = (mainDisk cfg unicodeUpper file disk).files) := by
  have hrun : ∀ disk : Disk, mainDisk travConfig id travSave disk
      = dumpItemOS true (ascii "out/record") (ascii "out/record/Y.mio")
          (dumpItemData travSave 1 mediumRecord)
          (dumpItemOS true (ascii "out/microgame") (ascii "out/microgame/../record/X.mio")
            (dumpItemData travSave 1 mediumMicrogame) disk) := by
    intro disk
    unfold mainDisk
    rw [travSave_calls, dumpCallsDisk, dumpCallsDisk, dumpCallsDisk]
    unfold dumpItemDisk
    rw [(travSave_fileNames id).1, (travSave_fileNames id).2]
    rfl
  have hlog : ∀ disk : Disk, mainCreated travConfig id travSave disk
      = [dumpItemCreated true (ascii "out/microgame") (ascii "out/microgame/../record/X.mio") disk,
          dumpItemCreated true (ascii "out/record") (ascii "out/record/Y.mio")
            (dumpItemOS true (ascii "out/microgame") (ascii "out/microgame/../record/X.mio")
              (dumpItemData travSave 1 mediumMicrogame) disk)] := by
    intro disk
    unfold mainCreated
    rw [travSave_calls, dumpCallsCreated, dumpCallsCreated, dumpCallsCreated]
    unfold dumpItemDisk
    rw [(travSave_fileNames id).1, (travSave_fileNames id).2]
    rfl
  have h1 : (mainDisk travConfig id travSave emptyDisk).files
      [ascii "out", ascii "record", ascii "X.mio"] = none := by
    rw [hrun]
    rfl
  have h2 : (mainDisk travConfig id travSave (mainDisk travConfig id travSave emptyDisk)).files
      [ascii "out", ascii "record", ascii "X.mio"]
      = some (dumpItemData travSave 1 mediumMicrogame) := by
    rw [hrun, hrun]
    rfl
  refine ⟨rfl, travSave_calls, (travSave_fileNames id).1, ?_, ?_, h1, h2, ?_⟩
  · rw [hlog]
    rfl
  · rw [hlog, hrun]
    rfl
  · intro h
    have h3 := congrFun (h travConfig id travSave emptyDisk rfl)
      [ascii "out", ascii "record", ascii "X.mio"]
    rw [h1, h2] at h3
    exact absurd h3 (by simp)

end Mio
